import Mathlib

/-!
# Verification of the CryBtoS/xmss Go library (core XMSS engine)

Shallow embedding of the Go sources `xmss.go` and the merkle traversal
engine (`merkle.go`, provided as `src/unnamed/part_000`).  Byte strings are
`List Nat` (each entry one byte), machine integers are `Nat` with explicit
`% 2^32` (`u32`) at the points where the Go code uses `uint32` arithmetic
that can wrap.  Go's SHA-256 / HMAC primitives are deliberately out of
scope of the specification (treated as external collaborators), so they
are abstracted into a `HashOracle` parameter; every derived keyed hash
(`F`, `H`, `H_msg`, `PRF`) is built from it following spec section 4.2.

Stacks of the merkle engine are stored top-first (Go appends the top at
the end of a slice; we cons it at the head), and imperative buffer writes
(`copy`, `binary.BigEndian.PutUint32`) are modelled by the explicit
`writeAt` function which mirrors Go slice-copy semantics exactly.
Functions that can panic in Go (indexing an empty stack, slicing out of
bounds) return `Option`, with `none` for the panic.
-/

namespace XMSS

/-! ## Byte-string utilities -/

/-- Byte strings: each list entry is one byte (values are taken mod 256 by
the producers that matter). -/
abbrev Bytes := List Nat

/-- `uint32` truncation. -/
def u32 (x : Nat) : Nat := x % 4294967296

/-- `uint8` truncation (Go `byte(...)` conversion). -/
def u8 (x : Nat) : Nat := x % 256

/-- Big-endian serialisation of `x` into exactly `len` bytes
(RFC 8391 `toByte`). -/
def toByte (x : Nat) : Nat → Bytes
  | 0 => []
  | len + 1 => toByte (x / 256) len ++ [x % 256]

/-- `binary.BigEndian.PutUint32` output. -/
def be32 (x : Nat) : Bytes := toByte (u32 x) 4

/-- Write `src` into buffer `buf` starting at position `pos`:
Go `copy(buf[pos:], src)` semantics (truncates at the end of `buf`,
keeps the tail of `buf` beyond the written region).  `src` is truncated
to the remaining buffer space by pairing it with `buf.drop pos`. -/
def writeAt (buf src : Bytes) (pos : Nat) : Bytes :=
  buf.take pos ++ List.zipWith (fun s _ => s) src (buf.drop pos) ++ buf.drop (pos + src.length)

theorem zipWith_fst_eq_take (src l : Bytes) :
    List.zipWith (fun s _ => s) src l = src.take l.length := by
  induction src generalizing l with
  | nil => simp
  | cons a as ih =>
    cases l with
    | nil => simp
    | cons b bs => simp [ih]

theorem writeAt_eq_take (buf src : Bytes) (pos : Nat) :
    writeAt buf src pos = buf.take pos ++ src.take (buf.length - pos)
      ++ buf.drop (pos + src.length) := by
  rw [writeAt, zipWith_fst_eq_take, List.length_drop]

/-- A fresh `make([]byte, m)` buffer with `src` copied in at offset 0. -/
def fit (m : Nat) (src : Bytes) : Bytes :=
  src.take m ++ List.replicate (m - src.length) 0

/-- Byte-wise xor of two strings (the library's `xorWords`; modelled from
the spec, section 4.5: plain xor of equal-length 32-byte strings). -/
def xorB (a b : Bytes) : Bytes := List.zipWith (fun x y => x ^^^ y) a b

theorem writeAt_length (buf src : Bytes) (pos : Nat) (h : pos + src.length ≤ buf.length) :
    (writeAt buf src pos).length = buf.length := by
  simp only [writeAt_eq_take, List.length_append, List.length_take, List.length_drop]
  omega

theorem fit_length (m : Nat) (src : Bytes) : (fit m src).length = m := by
  simp only [fit, List.length_append, List.length_take, List.length_replicate]
  omega

theorem toByte_length (x len : Nat) : (toByte x len).length = len := by
  induction len generalizing x with
  | zero => rfl
  | succ k ih => simp [toByte, ih]

theorem be32_length (x : Nat) : (be32 x).length = 4 := toByte_length _ _

/-! ## The hash oracle

The specification (section 1) places the SHA-256 primitive and the HMAC
used for seed derivation outside the core; they are parameters here. -/

structure HashOracle where
  sha : Bytes → Bytes
  hmac : Bytes → Bytes → Bytes

/-- The external primitives produce 32-byte digests. -/
def HashOracle.WF (o : HashOracle) : Prop :=
  (∀ b, (o.sha b).length = 32) ∧ ∀ k m, (o.hmac k m).length = 32

/-- A degenerate oracle used to instantiate closed statements. -/
def nilOracle : HashOracle := ⟨fun _ => [], fun _ _ => []⟩

/-- A well-formed concrete oracle. -/
def zeroOracle : HashOracle := ⟨fun _ => List.replicate 32 0, fun _ _ => List.replicate 32 0⟩

theorem zeroOracle_wf : zeroOracle.WF :=
  ⟨fun _ => List.length_replicate .., fun _ _ => List.length_replicate ..⟩

/-! ## Derived keyed hashes (modelled from the spec, section 4.2)

Modelled from the spec: the files defining `prf`, `hashH`, `hashMsg` and
`xorWords` are not part of the provided sources; section 4.2 defines them
as SHA-256 with a 32-byte domain-separation prefix.  Each result is
written into a fresh 32-byte output buffer (`fit 32`), mirroring the Go
convention of passing a preallocated `out []byte` of length 32. -/

/-- `F(key, msg)` (domain byte 0). -/
def hashF (o : HashOracle) (key msg : Bytes) : Bytes :=
  fit 32 (o.sha (toByte 0 32 ++ key ++ msg))

/-- `H(key, left ‖ right)` (domain byte 1). -/
def hashH (o : HashOracle) (key left right : Bytes) : Bytes :=
  fit 32 (o.sha (toByte 1 32 ++ key ++ left ++ right))

/-- `H_msg(r ‖ root ‖ idx_padded, msg)` (domain byte 2); the Go code passes
the 96-byte `r ‖ root ‖ idx. -/
def hashMsg (o : HashOracle) (r msg : Bytes) : Bytes :=
  fit 32 (o.sha (toByte 2 32 ++ r ++ msg))

/-- `prf.sum`: `PRF(seed, input)` (domain byte 3). -/
def prfSum (o : HashOracle) (seed input : Bytes) : Bytes :=
  fit 32 (o.sha (toByte 3 32 ++ seed ++ input))

/-- `prf.sumInt`: the 32-bit integer is zero-extended into the 32-byte
input slot. -/
def prfSumInt (o : HashOracle) (seed : Bytes) (i : Nat) : Bytes :=
  prfSum o seed (toByte (u32 i) 32)

theorem hashF_length (o key msg) : (hashF o key msg).length = 32 := fit_length ..
theorem hashH_length (o key l r) : (hashH o key l r).length = 32 := fit_length ..
theorem hashMsg_length (o r msg) : (hashMsg o r msg).length = 32 := fit_length ..
theorem prfSum_length (o seed input) : (prfSum o seed input).length = 32 := fit_length ..

/-! ## Addresses (modelled from the spec, section 4.1)

A 32-byte `ADRS` of eight big-endian 32-bit words; word 0 is the layer,
words 1-2 the 64-bit tree index, word 3 the type, words 4-6 the
type-dependent fields and word 7 the key-and-mask selector. -/

abbrev Addr := Bytes

def addr0 : Addr := List.replicate 32 0

/-- Word indices of the logical address fields (`adr*` constants). -/
def adrLayer : Nat := 0
def adrType : Nat := 3
def adrOTS : Nat := 4
def adrLtree : Nat := 4
def adrChain : Nat := 5
def adrHeight : Nat := 5
def adrHash : Nat := 6
def adrIndex : Nat := 6
def adrKM : Nat := 7

/-- `addrs.set(word, v)`: write the word as big-endian `uint32`. -/
def addrSet (a : Addr) (word v : Nat) : Addr :=
  writeAt a (be32 v) (4 * word)

/-- `addrs.setTree(v)`: the 64-bit tree index spans words 1-2,
big-endian. -/
def addrSetTree (a : Addr) (v : Nat) : Addr :=
  writeAt a (toByte (v % 18446744073709551616) 8) 4

/-! ## Constants (spec section 6) -/

/-- Hash output size in bytes. -/
def n : Nat := 32
/-- WOTS+ chain count for `n = 32`, `w = 16`. -/
def wlen : Nat := 67

/-! ## randHash — masked compression (source: `xmss.go`, `randHash`) -/

/-- `randHash(left, right, p, addrs, out)`: key and bitmasks are derived
from the public-seed PRF at `KM = 0,1,2`, then
`H(key, (left ⊕ bm0) ‖ (right ⊕ bm1))` is written to the fresh 32-byte
`out` buffer. -/
def randHash (o : HashOracle) (pub left right : Bytes) (a : Addr) : Bytes :=
  let key := prfSum o pub (addrSet a adrKM 0)
  let bm0 := prfSum o pub (addrSet a adrKM 1)
  let bm1 := prfSum o pub (addrSet a adrKM 2)
  hashH o key (xorB left bm0) (xorB right bm1)

/-! ## WOTS+ (modelled from the spec, section 4.3)

Modelled from the spec: the WOTS+ source file is not part of the provided
sources; section 4.3 fixes `w = 16`, `wlen = 67 = 64 + 3`, the chain
function, the base-w digit encoding with checksum, signing and public-key
recovery. -/

/-- One chain step at hash index `j`:
`key = PRF(pubSeed, ADRS{hash_index=j, km=0})`,
`bm = PRF(..., km=1)`, `x ← F(key, x ⊕ bm)`. -/
def chainStep (o : HashOracle) (pub : Bytes) (a : Addr) (j : Nat) (x : Bytes) : Bytes :=
  let aj := addrSet a adrHash j
  let key := prfSum o pub (addrSet aj adrKM 0)
  let bm := prfSum o pub (addrSet aj adrKM 1)
  hashF o key (xorB x bm)

/-- `chain(x, start, steps, pubSeed, ADRS)`: apply `chainStep` at hash
indices `start, start+1, …, start+steps-1`. -/
def chain (o : HashOracle) (pub : Bytes) (a : Addr) (x : Bytes) (start : Nat) : Nat → Bytes
  | 0 => x
  | steps + 1 => chain o pub a (chainStep o pub a start x) (start + 1) steps

/-- The 64 data digits: each 32-byte digest byte supplies two base-16
digits, high nibble first (big-endian). -/
def dataDigits (hmsg : Bytes) : List Nat :=
  ((fit 32 hmsg).map (fun b => [b / 16 % 16, b % 16])).flatten

/-- Checksum digits: `C = Σ (15 − d_i)`, left-shifted by 4 bits into a
big-endian 2-byte value whose top nibble is ignored; the lower 12 bits
supply three base-16 digits. -/
def checksumDigits (ds : List Nat) : List Nat :=
  let c := (ds.map (fun d => 15 - d)).sum
  let v := c * 16
  [v / 256 % 16, v % 256 / 16, v % 16]

/-- All `wlen = 67` base-w digits of a message digest. -/
def msgDigits (hmsg : Bytes) : List Nat :=
  dataDigits hmsg ++ checksumDigits (dataDigits hmsg)

/-- WOTS+ private key derivation (source: `xmss.go`,
`PrivateKey.newWotsPrivKey`): a per-leaf seed `s = PRF(secretKeySeed,
ADRS)`, then `sk[i] = PRF(s, toByte(i, 32))`. -/
def wotsSK (o : HashOracle) (wotsSeed : Bytes) (a : Addr) : List Bytes :=
  let s := prfSum o wotsSeed a
  (List.range wlen).map (fun i => prfSumInt o s i)

/-- WOTS+ public key from the private key:
`pk[i] = chain(sk[i], 0, w−1)` with `chain_index = i`. -/
def wotsPK (o : HashOracle) (pub : Bytes) (sk : List Bytes) (a : Addr) : List Bytes :=
  (List.range wlen).map (fun i => chain o pub (addrSet a adrChain i) (sk.getD i []) 0 15)

/-- WOTS+ signature: `sig[i] = chain(sk[i], 0, d_i)`. -/
def wotsSign (o : HashOracle) (pub : Bytes) (hmsg : Bytes) (sk : List Bytes) (a : Addr) :
    List Bytes :=
  (List.range wlen).map (fun i =>
    chain o pub (addrSet a adrChain i) (sk.getD i []) 0 ((msgDigits hmsg).getD i 0))

/-- Public key recovery from a signature:
`pk[i] = chain(sig[i], d_i, w − 1 − d_i)`. -/
def wotsPKFromSig (o : HashOracle) (pub : Bytes) (hmsg : Bytes) (sig : List Bytes) (a : Addr) :
    List Bytes :=
  (List.range wlen).map (fun i =>
    chain o pub (addrSet a adrChain i) (sig.getD i [])
      ((msgDigits hmsg).getD i 0) (15 - (msgDigits hmsg).getD i 0))

/-! ## L-tree (source: `xmss.go`, `wotsPubKey.ltree`) -/

/-- One folding level: adjacent pairs are compressed with `randHash` at
`ADRS{height, index=i}`; an odd trailing node is promoted unchanged. -/
def ltreeLevel (o : HashOracle) (pub : Bytes) (a : Addr) (height : Nat) (pk : List Bytes) :
    List Bytes :=
  let l := pk.length
  (List.range (l / 2)).map (fun i =>
      randHash o pub (pk.getD (2 * i) []) (pk.getD (2 * i + 1) [])
        (addrSet (addrSet a adrHeight height) adrIndex i))
    ++ if l % 2 = 1 then [pk.getD (l - 1) []] else []

theorem ltreeLevel_length (o pub a height pk) :
    (ltreeLevel o pub a height pk).length = pk.length / 2 + pk.length % 2 := by
  rcases Nat.mod_two_eq_zero_or_one pk.length with h | h
  · simp [ltreeLevel, h]
  · simp [ltreeLevel, h]

/-- The folding loop: `l := (l >> 1) + (l & 1)` per level, the per-level
height counter incremented each iteration (source semantics: the counter
advances even on levels with a promoted carry).  The source loop runs
while `l > 1`; each level shrinks `l ≥ 2` to `l/2 + l%2 ≤ l - 1`, so
`pk.length` iterations always reach `l ≤ 1` — `fuel` is that structural
bound, making the loop a structural recursion with identical result. -/
def ltreeGo (o : HashOracle) (pub : Bytes) (a : Addr) : Nat → Nat → List Bytes → Bytes
  | _, 0, pk => pk.getD 0 []
  | height, fuel + 1, pk =>
    if pk.length ≤ 1 then pk.getD 0 []
    else ltreeGo o pub a (height + 1) fuel (ltreeLevel o pub a height pk)

/-- `ltree`: fold the `wlen` chain ends into a single 32-byte leaf. -/
def ltree (o : HashOracle) (pub : Bytes) (a : Addr) (pk : List Bytes) : Bytes :=
  ltreeGo o pub a 0 pk.length pk

/-! ## Leaf computation (source: `merkle.go`, `stack.newleaf`)

WOTS+ key generation followed by L-tree compression, at address
`(layer, tree, leafIdx)`. -/

/-- The OTS address for a leaf (layer, tree and OTS index set, type 0). -/
def leafAddr (layer tree leafIdx : Nat) : Addr :=
  addrSet (addrSetTree (addrSet addr0 adrLayer layer) tree) adrOTS leafIdx

/-- The 32-byte merkle leaf at index `leafIdx`. -/
def leafCalc (o : HashOracle) (wotsSeed pubSeed : Bytes) (layer tree leafIdx : Nat) : Bytes :=
  let a := leafAddr layer tree leafIdx
  let sk := wotsSK o wotsSeed a
  let pk := wotsPK o pubSeed sk a
  ltree o pubSeed (addrSet (addrSet a adrType 1) adrLtree leafIdx) pk

/-! ## The merkle build stack (source: `merkle.go`) -/

/-- `nh`: a node in the merkle tree. -/
structure NH where
  node : Bytes
  height : Nat
  index : Nat
deriving DecidableEq, Repr

/-- `stack`: a build stack.  The Go code appends the top of the stack at
the end of the slice; here the top is the head of `stk`. -/
structure MStack where
  stk : List NH
  height : Nat
  leaf : Nat
  layer : Nat
  tree : Nat
deriving DecidableEq, Repr

/-- `stack.low()`: the target height if empty, `MaxUint32` if the top has
reached the target height, otherwise the minimum height on the stack. -/
def MStack.low (s : MStack) : Nat :=
  match s.stk with
  | [] => s.height
  | t :: _ =>
    if t.height = s.height then 4294967295
    else (s.stk.map NH.height).foldl min 4294967295

/-- `stack.initialize(start, height)`. -/
def MStack.reinit (s : MStack) (start height : Nat) : MStack :=
  { s with leaf := start, height := height, stk := [] }

/-- Is the stack finished (nonempty with the top at the target height)?
This is the guard at the entry of `stack.updateSub`. -/
def MStack.doneB (s : MStack) : Bool :=
  match s.stk with
  | t :: _ => t.height = s.height
  | [] => false

/-- `stack.newleaf`: push the leaf at the stack's cursor (height 0) and
advance the cursor (`uint32`).  The 32-byte node buffer is a copy of the
L-tree output. -/
def MStack.newleaf (o : HashOracle) (wotsSeed pubSeed : Bytes) (s : MStack) : MStack :=
  let nd : NH := ⟨fit 32 (leafCalc o wotsSeed pubSeed s.layer s.tree s.leaf), 0, s.leaf⟩
  { s with stk := nd :: s.stk, leaf := u32 (s.leaf + 1) }

/-- The address used when combining two nodes (type 2; height of the
combined children, index of the parent), as set up in `stack.updateSub`. -/
def combineAddr (layer tree height index : Nat) : Addr :=
  addrSet (addrSet (addrSetTree (addrSet (addrSet addr0 adrType 2) adrLayer layer) tree)
    adrHeight height) adrIndex index

/-- Combine the top two (equal-height) nodes into their parent. -/
def combineTop (o : HashOracle) (pub : Bytes) (layer tree : Nat) (l r : NH) : NH :=
  let idx := r.index >>> 1
  ⟨randHash o pub l.node r.node (combineAddr layer tree r.height idx),
    u32 (r.height + 1), idx⟩

/-- One iteration of the loop body of `stack.updateSub`, generalised over
the leaf maker `mk` (Go passes a closure) with auxiliary state `α`:
if the top two nodes have equal height they are combined, otherwise a new
leaf is produced. -/
def stepG {α : Type} (o : HashOracle) (pub : Bytes) (mk : MStack → α → MStack × α) :
    MStack × α → MStack × α
  | (s, x) =>
    match s.stk with
    | r :: l :: rest =>
      if l.height = r.height then
        ({ s with stk := combineTop o pub s.layer s.tree l r :: rest }, x)
      else mk s x
    | _ => mk s x

/-- `stack.updateSub(nn, priv, newleaf)`: if the stack is already
finished do nothing, otherwise run `nn` elementary steps. -/
def updateSubG {α : Type} (o : HashOracle) (pub : Bytes) (mk : MStack → α → MStack × α)
    (nn : Nat) (s : MStack) (x : α) : MStack × α :=
  if s.doneB then (s, x) else (stepG o pub mk)^[nn] (s, x)

/-- The sequential leaf maker (`stack.newleaf`); `stack.update` and
`stack.goUpdate` both use it — the `isGo` flag only selects the
multi-threaded implementation of the WOTS+ public key, whose result is
identical. -/
def seqLeaf (o : HashOracle) (wotsSeed pubSeed : Bytes) : MStack → Unit → MStack × Unit :=
  fun s _ => (s.newleaf o wotsSeed pubSeed, ())

/-- `stack.update(nn, priv)`. -/
def MStack.update (o : HashOracle) (wotsSeed pubSeed : Bytes) (nn : Nat) (s : MStack) :
    MStack :=
  (updateSubG o pubSeed (seqLeaf o wotsSeed pubSeed) nn s ()).1

/-! ## The traversal state (source: `merkle.go`, `merkle`) -/

/-- `merkle`: the traversal state. -/
structure Merkle where
  leaf : Nat
  height : Nat
  stacks' : List MStack
  auth : List Bytes
  layer : Nat
  tree : Nat
deriving DecidableEq, Repr

/-- Out-of-range stack accesses never happen on reachable states; the
default only keeps list indexing total. -/
def junkStack : MStack := ⟨[], 0, 0, 0, 0⟩

/-- One height of `merkle.refreshAuth`: at a `2^h` boundary of
`leaf + 1`, the auth node at height `h` becomes the top of `stacks'[h]`
(`none` models the Go panic on an empty stack) and the stack is
re-initialised at start index `((leaf+1) + 2^h) XOR 2^h`.  All arithmetic
is `uint32`. -/
def refreshOne (m : Merkle) (h : Nat) : Option Merkle :=
  let pow := u32 (2 ^ h)
  let mask := u32 (pow + 4294967295)
  if (u32 (m.leaf + 1)) &&& mask = 0 then
    match (m.stacks'.getD h junkStack).stk with
    | [] => none
    | t :: _ =>
      let startnode := (u32 (u32 (m.leaf + 1) + pow)) ^^^ pow
      some { m with
        auth := m.auth.set h t.node,
        stacks' := m.stacks'.set h ((m.stacks'.getD h junkStack).reinit startnode h) }
  else some m

/-- `merkle.refreshAuth()`. -/
def refreshAuthN (m : Merkle) : Option Merkle :=
  (List.range m.height).foldlM refreshOne m

/-- The scan of `PrivateKey.build` choosing the stack with the minimal
`low()` value, ties broken by the lower height (`low < min` keeps the
first minimum): returns `(min, focus)`. -/
def scanLow (m : Merkle) : Nat × Nat :=
  (List.range m.height).foldl
    (fun (p : Nat × Nat) h =>
      let lo := (m.stacks'.getD h junkStack).low
      if lo < p.1 then (lo, h) else p)
    (4294967295, 0)

/-- One iteration of `PrivateKey.build`: one `goUpdate(1)` step on the
focused stack. -/
def buildOnce (o : HashOracle) (wotsSeed pubSeed : Bytes) (m : Merkle) : Merkle :=
  let focus := (scanLow m).2
  { m with stacks' :=
      m.stacks'.set focus ((m.stacks'.getD focus junkStack).update o wotsSeed pubSeed 1) }

/-- The `uint32` loop bound `2*height - 1` of `PrivateKey.build`. -/
def buildSteps (height : Nat) : Nat := u32 (2 * height + 4294967295)

/-- `PrivateKey.build()`. -/
def buildN (o : HashOracle) (wotsSeed pubSeed : Bytes) (m : Merkle) : Merkle :=
  (buildOnce o wotsSeed pubSeed)^[buildSteps m.height] m

/-- `PrivateKey.traverse()`: refresh the auth nodes, do the build work,
increment the leaf counter (`uint32`); `none` propagates a panic from
`refreshAuth`. -/
def traverseN (o : HashOracle) (wotsSeed pubSeed : Bytes) (m : Merkle) : Option Merkle :=
  match refreshAuthN m with
  | none => none
  | some m1 =>
    some { buildN o wotsSeed pubSeed m1 with
           leaf := u32 ((buildN o wotsSeed pubSeed m1).leaf + 1) }

/-! ## Initial tree construction (source: `merkle.go`, `initMerkle`)

The worker count is environment-derived in Go
(`nproc = ⌈log₂ GOMAXPROCS⌉`); it is a parameter `nproc0` here, and the
clamp `if h ≤ nproc { nproc = 0 }` is applied as in the source.  Workers
run disjoint stacks' and are joined before their results are consumed, so
the construction is modelled by computing the worker results first. -/

/-- The leaf maker used above the subtree threshold: pop the next
pre-computed subtree root.  An exhausted queue is the Go panic
(`ntop[0]` out of range), modelled by poisoning the auxiliary state. -/
def popLeaf : MStack → Option (List NH) → MStack × Option (List NH)
  | s, some (nd :: rest) => ({ s with stk := nd :: s.stk }, some rest)
  | s, _ => (s, none)

/-- Worker `i` (for `i ∈ [1, 2^p)`): an isolated stack over the `i`-th
subtree of height `h - p`, with budget `2^(h-p+1) - 1`; the worker's
result is its top node. -/
def workerTop (o : HashOracle) (ws ps : Bytes) (h p layer tree i : Nat) : Option NH :=
  let s : MStack := ⟨[], h - p, u32 (u32 (2 ^ (h - p)) * i), layer, tree⟩
  match (s.update o ws ps (2 ^ (h - p + 1) - 1)).stk with
  | [] => none
  | t :: _ => some t

/-- The main-thread loop state of `initMerkle`. -/
structure InitSt where
  s : MStack
  stacks' : List MStack
  auth : List Bytes
  q : Option (List NH)

/-- Phase `i` of the main loop of `initMerkle`: one step, seed
`stacks'[i]` with the current top, then either `2^(i+1) - 1` further
sequential steps (below the threshold) or `2^(i-(h-p)+1) - 1` steps with
the pop leaf maker, and record `auth[i]` from the new top. -/
def initPhase (o : HashOracle) (ws ps : Bytes) (h p layer tree : Nat) (st : InitSt)
    (i : Nat) : Option InitSt :=
  let s1 := st.s.update o ws ps 1
  match s1.stk with
  | [] => none
  | t :: _ =>
    let sti : MStack := ⟨[t], i, u32 (2 ^ i), layer, tree⟩
    if i < h - p then
      let s2 := s1.update o ws ps (2 ^ (i + 1) - 1)
      match s2.stk with
      | [] => none
      | t2 :: _ =>
        some ⟨s2, st.stacks' ++ [sti], st.auth ++ [fit 32 t2.node], st.q⟩
    else
      let r := updateSubG o ps popLeaf (2 ^ (i - (h - p) + 1) - 1) s1 st.q
      match r.2 with
      | none => none
      | some q' =>
        match r.1.stk with
        | [] => none
        | t2 :: _ =>
          some ⟨r.1, st.stacks' ++ [sti], st.auth ++ [fit 32 t2.node], some q'⟩

/-- `PrivateKey.initMerkle(h, layer, tree)`: returns the traversal state
and the root written into `priv.root`. -/
def initMerkleN (o : HashOracle) (ws ps : Bytes) (nproc0 h layer tree : Nat) :
    Option (Merkle × Bytes) := do
  let p := if h ≤ nproc0 then 0 else nproc0
  let ntop ← (List.range (2 ^ p - 1)).mapM (fun j => workerTop o ws ps h p layer tree (j + 1))
  let st0 : InitSt := ⟨⟨[], h, 0, layer, tree⟩, [], [], some ntop⟩
  let st ← (List.range h).foldlM (initPhase o ws ps h p layer tree) st0
  let sf := st.s.update o ws ps 1
  match sf.stk with
  | [] => none
  | t :: _ => some (⟨0, h, st.stacks', st.auth, layer, tree⟩, t.node)

/-! ## Keys (source: `xmss.go`) -/

/-- `PublicKey`: parameters, public seed, merkle root. -/
structure PublicKey where
  Height : Nat
  publicSeed : Bytes
  root : Bytes
deriving DecidableEq, Repr

/-- `PrivateKey`: the embedded public part, the two secret PRF seeds
(`msgPRF`, `wotsPRF` hold their seeds) and the traversal state. -/
structure PrivateKey where
  pub : PublicKey
  msgSeed : Bytes
  wotsSeed : Bytes
  m : Merkle
deriving DecidableEq, Repr

/-- `PrivateKeyExport`. -/
structure PrivateKeyExport where
  Height : Nat
  PublicSeed : Bytes
  Root : Bytes
  Index : Nat
  SecretKeyPRF : Bytes
  SecretKeySeed : Bytes
deriving DecidableEq, Repr

/-- `NewXMSSKeyPairWithParams`: build the traversal state; the root
computed by `initMerkle` is copied into the shared 32-byte root buffer of
both returned keys. -/
def NewXMSSKeyPairWithParamsN (o : HashOracle) (nproc height : Nat)
    (secretKeySeed secretKeyPRF publicSeed : Bytes) (layer tree : Nat) :
    Option (PrivateKey × PublicKey) := do
  let (m, rootNode) ← initMerkleN o secretKeySeed publicSeed nproc height layer tree
  let root := writeAt (List.replicate 32 0) rootNode 0
  let pub : PublicKey := ⟨height, publicSeed, root⟩
  pure (⟨pub, secretKeyPRF, secretKeySeed, m⟩, pub)

/-- `NewXMSSKeyPair`: derive the three seeds from the user seed by
HMAC-SHA256 with byte messages 1, 2, 3 (spec section 6). -/
def NewXMSSKeyPairN (o : HashOracle) (nproc height : Nat) (seed : Bytes) :
    Option (PrivateKey × PublicKey) :=
  NewXMSSKeyPairWithParamsN o nproc height
    (o.hmac seed [1]) (o.hmac seed [2]) (o.hmac seed [3]) 0 0

/-! ## Signatures and their byte layout (source: `xmss.go`) -/

/-- `xmssSigBody`. -/
structure XSigBody where
  sig : List Bytes
  auth : List Bytes
deriving DecidableEq, Repr

/-- `xmssSig`. -/
structure XSig where
  index : Nat
  r : Bytes
  body : XSigBody
deriving DecidableEq, Repr

/-- `xmssSigBody.bytes()`: the WOTS+ blocks at offsets `i*n`, the auth
blocks at `wlen*n + i*n`, written into a zeroed buffer. -/
def bodyBytes (b : XSigBody) : Bytes :=
  let size := wlen * n + b.auth.length * n
  let buf0 := (List.range b.sig.length).foldl
    (fun bf i => writeAt bf (b.sig.getD i []) (i * n)) (List.replicate size 0)
  (List.range b.auth.length).foldl
    (fun bf i => writeAt bf (b.auth.getD i []) (wlen * n + i * n)) buf0

/-- `xmssSig.bytes()`: `idx:u32 | r | body` in one buffer of size
`4 + n + wlen*n + len(auth)*n`. -/
def sigBytes (x : XSig) : Bytes :=
  let size := 4 + n + wlen * n + x.body.auth.length * n
  writeAt (writeAt (writeAt (List.replicate size 0) (be32 x.index) 0) x.r 4)
    (bodyBytes x.body) (4 + n)

/-- `PrivateKey.createSignatureBody`: WOTS+-sign the message digest at
the current leaf address; the auth path is taken from the traversal
state. -/
def createSignatureBodyN (o : HashOracle) (k : PrivateKey) (hmsg : Bytes) : XSigBody :=
  let a := leafAddr k.m.layer k.m.tree k.m.leaf
  let wsk := wotsSK o k.wotsSeed a
  ⟨wotsSign o k.pub.publicSeed hmsg wsk a, k.m.auth⟩

/-- `PrivateKey.Sign`: serialise the signature at the current leaf, then
advance the traversal state (`none` models a panic inside `traverse`). -/
def SignN (o : HashOracle) (k : PrivateKey) (msg : Bytes) : Option (Bytes × PrivateKey) :=
  let index := writeAt (List.replicate 32 0) (be32 k.m.leaf) 28
  let r := writeAt (writeAt (writeAt (List.replicate 96 0) (prfSum o k.msgSeed index) 0)
    k.pub.root 32) index 64
  let hm := hashMsg o r msg
  let body := createSignatureBodyN o k hm
  let result := sigBytes ⟨k.m.leaf, r.take 32, body⟩
  match traverseN o k.wotsSeed k.pub.publicSeed k.m with
  | none => none
  | some m' => some (result, { k with m := m' })

/-- `PrivateKey.Export`. -/
def ExportN (k : PrivateKey) : PrivateKeyExport :=
  ⟨k.pub.Height, k.pub.publicSeed, k.pub.root, k.m.leaf, k.msgSeed, k.wotsSeed⟩

/-- `PrivateKey.Import`: the parameters and seeds are taken from the
export; the Go code then assigns `priv.m.leaf = key.Index` but immediately
calls `initMerkle(Height, 0, 0)`, which replaces the whole traversal state
(with `leaf = 0`) and copies the recomputed root over `priv.root` (which
aliases `key.Root`). -/
def ImportN (o : HashOracle) (nproc : Nat) (e : PrivateKeyExport) : Option PrivateKey := do
  let (m, rootNode) ← initMerkleN o e.SecretKeySeed e.PublicSeed nproc e.Height 0 0
  let root := writeAt e.Root rootNode 0
  pure ⟨⟨e.Height, e.PublicSeed, root⟩, e.SecretKeyPRF, e.SecretKeySeed, m⟩

/-! ## Parsing (source: `xmss.go`, `bytes2sig` / `bytes2sigBody`) -/

/-- Go slice expression `b[i:j]`; `none` models the bounds panic. -/
def sliceB (b : Bytes) (i j : Nat) : Option Bytes :=
  if i ≤ j ∧ j ≤ b.length then some ((b.drop i).take (j - i)) else none

/-- `binary.BigEndian.Uint32(b)`; `none` models the bounds panic. -/
def u32BE (b : Bytes) : Option Nat :=
  if 4 ≤ b.length then
    some (((b.getD 0 0 * 256 + b.getD 1 0) * 256 + b.getD 2 0) * 256 + b.getD 3 0)
  else none

/-- `bytes2sigBody(b, height)`: the `wlen` WOTS+ blocks followed by
`height` auth blocks, all 32 bytes. -/
def bytes2sigBodyN (b : Bytes) (height : Nat) : Option XSigBody := do
  let sig ← (List.range wlen).mapM (fun i => sliceB b (i * n) ((i + 1) * n))
  let auth ← (List.range height).mapM
    (fun i => sliceB b (n * wlen + n * i) (n * wlen + n * (i + 1)))
  pure ⟨sig, auth⟩

/-- `bytes2sig(b, h)`: the `int` computation
`height := (len(b) - (4 + n + wlen*n)) >> 5` (arithmetic shift = floor
division by 32) is compared against `h`; mismatch is the graceful error
(`some none`), the subsequent slicing can panic (`none`). -/
def bytes2sigN (b : Bytes) (hb : Nat) : Option (Option XSig) :=
  let ht : Int := Int.fdiv ((b.length : Int) - (4 + n + wlen * n : Nat)) 32
  if ht ≠ (hb : Int) then some none
  else do
    let bb ← sliceB b (4 + n) b.length
    let body ← bytes2sigBodyN bb ht.toNat
    let idx ← u32BE b
    let r ← sliceB b 4 (4 + n)
    pure (some ⟨idx, r, body⟩)

/-! ## Root reconstruction and Verify (source: `xmss.go`) -/

/-- The loop of `rootFromSig`: ascend the auth levels, combining with
`randHash` at `ADRS{type=2, height=k, index=idx>>1}`, the operand order
chosen by the low bit of the running index. -/
def rootLevels (o : HashOracle) (ps : Bytes) (a2 : Addr) :
    List Bytes → Nat → Bytes → Nat → Bytes
  | [], _, node, _ => node
  | a :: rest, k, node, idx =>
    let ak := addrSet (addrSet a2 adrHeight k) adrIndex (idx >>> 1)
    let node' := if idx % 2 = 0 then randHash o ps node a ak else randHash o ps a node ak
    rootLevels o ps a2 rest (k + 1) node' (idx >>> 1)

/-- `rootFromSig(idx, hmsg, body, prf, layer, tree)`. -/
def rootFromSigN (o : HashOracle) (ps : Bytes) (idx0 : Nat) (hmsg : Bytes) (body : XSigBody)
    (layer tree : Nat) : Bytes :=
  let a0 := addrSet (addrSetTree (addrSet addr0 adrLayer layer) tree) adrOTS idx0
  let pkOTS := wotsPKFromSig o ps hmsg body.sig a0
  let a1 := addrSet (addrSet a0 adrType 1) adrLtree idx0
  let node0 := ltree o ps a1 pkOTS
  let a2 := addrSet (addrSet a0 adrType 2) adrLtree 0
  rootLevels o ps a2 body.auth 0 node0 idx0

/-- `PublicKey.Verify(bsig, msg)`: parse (errors give `false`), rebuild
the 96-byte message-hash prefix from the stored root, recompute the root
from the signature and compare. -/
def VerifyN (o : HashOracle) (pk : PublicKey) (bsig msg : Bytes) : Option Bool :=
  match bytes2sigN bsig (u8 pk.Height) with
  | none => none
  | some none => some false
  | some (some sig) =>
    let r := writeAt (writeAt (writeAt (List.replicate 96 0) sig.r 0) pk.root 32)
      (be32 sig.index) 92
    let hm := hashMsg o r msg
    let root := rootFromSigN o pk.publicSeed sig.index hm sig.body 0 0
    some (root == pk.root)

/-! ## A sequence of `Sign` calls on one key -/

/-- Run `Sign` for each message in turn, collecting the emitted
signatures. -/
def signSeqN (o : HashOracle) : PrivateKey → List Bytes → Option (List Bytes × PrivateKey)
  | k, [] => some ([], k)
  | k, msg :: rest => do
    let (s, k') ← SignN o k msg
    let (ss, kf) ← signSeqN o k' rest
    pure (s :: ss, kf)

/-! ## Claims C2 and C3 -/

set_option maxRecDepth 40000 in
/-- C2: the claim requires `Sign` on a key with `idx = 2^H` to fail
loudly with a KeyExhausted error.  The code has no exhaustion check at
all: with `H = 1`, after the key has emitted its `2^1 = 2` signatures
(`m.leaf = 2`), a third `Sign` call still returns a signature, carrying
index `2`, and keeps going.  (The oracle is irrelevant to the control
flow; the degenerate `nilOracle` keeps the evaluation small.) -/
theorem claim_C2_exhaustion_unchecked :
    (do
      let (k0, _) ← NewXMSSKeyPairN nilOracle 0 1 []
      let (_, k1) ← SignN nilOracle k0 []
      let (_, k2) ← SignN nilOracle k1 []
      pure (k2.m.leaf, (SignN nilOracle k2 []).map (fun p => p.1.take 4))) =
    some (2, some [0, 0, 0, 2]) := by decide

set_option maxRecDepth 40000 in
/-- C3: the claim requires the imported key to resume at the exported
`Index` and to reproduce the original key's next signature.  In the code,
`Import` assigns `priv.m.leaf = key.Index` but then calls
`initMerkle(Height, 0, 0)`, which replaces the traversal state with a
fresh one at `leaf = 0`: with `H = 1`, after one signature the export
carries `Index = 1`, yet the imported key has `m.leaf = 0` and its next
signature carries index `0` (re-using leaf 0) while the original key's
next signature carries index `1`. -/
theorem claim_C3_import_resets_leaf :
    (do
      let (k0, _) ← NewXMSSKeyPairN nilOracle 0 1 []
      let (_, k1) ← SignN nilOracle k0 []
      let e := ExportN k1
      let k2 ← ImportN nilOracle 0 e
      pure (e.Index, k2.m.leaf,
        (SignN nilOracle k1 []).map (fun p => p.1.take 4),
        (SignN nilOracle k2 []).map (fun p => p.1.take 4))) =
    some (1, 0, some [0, 0, 0, 1], some [0, 0, 0, 0]) := by decide

/-! ## Parsing never panics (claims C10 and C4) -/

theorem mapM_eq_some_of_forall {α β : Type} (f : α → Option β) (g : α → β) :
    ∀ l : List α, (∀ a ∈ l, f a = some (g a)) → l.mapM f = some (l.map g)
  | [], _ => rfl
  | a :: l, h => by
    rw [List.mapM_cons, h a (List.mem_cons_self ..),
      mapM_eq_some_of_forall f g l (fun x hx => h x (List.mem_cons_of_mem _ hx))]
    rfl

/-- If the length check of `bytes2sig` passes then `b` is long enough for
every slice the parser takes: parsing never panics. -/
theorem bytes2sigN_ne_none (b : Bytes) (hb : Nat) : bytes2sigN b hb ≠ none := by
  rw [bytes2sigN]
  split
  · exact Option.noConfusion
  · next hlen =>
    rw [not_not] at hlen
    have hL : 2180 + 32 * hb ≤ b.length := by
      have hfd : ((b.length : Int) - 2180).fdiv 32 = (hb : Int) := by
        have : ((4 + n + wlen * n : Nat) : Int) = 2180 := by norm_num [n, wlen]
        rw [← this]
        exact hlen
      rw [Int.fdiv_eq_ediv _ (by omega)] at hfd
      omega
    have htoNat : (Int.fdiv ((b.length : Int) - (4 + n + wlen * n : Nat)) 32).toNat = hb := by
      rw [hlen]
      exact Int.toNat_natCast hb
    have h36 : sliceB b (4 + n) b.length = some ((b.drop (4 + n)).take (b.length - (4 + n))) := by
      rw [sliceB, if_pos ⟨by simp only [n]; omega, le_refl _⟩]
    have hlen2 : ((b.drop (4 + n)).take (b.length - (4 + n))).length = b.length - (4 + n) := by
      simp only [List.length_take, List.length_drop]
      omega
    have h1 : (List.range wlen).mapM (fun i =>
        sliceB ((b.drop (4 + n)).take (b.length - (4 + n))) (i * n) ((i + 1) * n)) =
        some ((List.range wlen).map (fun i =>
          ((((b.drop (4 + n)).take (b.length - (4 + n))).drop (i * n)).take ((i + 1) * n - i * n)))) := by
      refine mapM_eq_some_of_forall _ _ _ (fun i hi => ?_)
      rw [List.mem_range] at hi
      rw [sliceB, if_pos]
      rw [hlen2]
      simp only [n, wlen] at hi ⊢
      omega
    have h2 : (List.range hb).mapM (fun i =>
        sliceB ((b.drop (4 + n)).take (b.length - (4 + n))) (n * wlen + n * i) (n * wlen + n * (i + 1))) =
        some ((List.range hb).map (fun i =>
          ((((b.drop (4 + n)).take (b.length - (4 + n))).drop (n * wlen + n * i)).take
            (n * wlen + n * (i + 1) - (n * wlen + n * i))))) := by
      refine mapM_eq_some_of_forall _ _ _ (fun i hi => ?_)
      rw [List.mem_range] at hi
      rw [sliceB, if_pos]
      rw [hlen2]
      simp only [n, wlen] at hi ⊢
      omega
    have hbody : ∃ body, bytes2sigBodyN ((b.drop (4 + n)).take (b.length - (4 + n)))
        ((Int.fdiv ((b.length : Int) - (4 + n + wlen * n : Nat)) 32).toNat) =
        some body :=
      ⟨_, by rw [bytes2sigBodyN, htoNat]
             simp only [h1, h2, Option.bind_eq_bind', Option.some_bind']
             rfl⟩
    obtain ⟨body, hbody⟩ := hbody
    have hu : u32BE b =
        some (((b.getD 0 0 * 256 + b.getD 1 0) * 256 + b.getD 2 0) * 256 + b.getD 3 0) := by
      rw [u32BE, if_pos (by omega)]
    have hr : sliceB b 4 (4 + n) = some ((b.drop 4).take (4 + n - 4)) := by
      rw [sliceB, if_pos ⟨by simp only [n]; omega, by simp only [n]; omega⟩]
    simp only [h36, hbody, hu, hr, Option.bind_eq_bind', Option.some_bind']
    exact Option.noConfusion

/-- C10: `Verify` is total: for every byte slice and message it returns a
boolean (`none` would be the out-of-bounds panic), and whenever the parse
step reports the length error, the result is `false`. -/
theorem claim_C10_verify_total (o : HashOracle) (pk : PublicKey) (b msg : Bytes) :
    (∃ r : Bool, VerifyN o pk b msg = some r) ∧
      (bytes2sigN b (u8 pk.Height) = some none → VerifyN o pk b msg = some false) := by
  constructor
  · rw [VerifyN]
    rcases hp : bytes2sigN b (u8 pk.Height) with _ | sig
    · exact absurd hp (bytes2sigN_ne_none b _)
    · rcases sig with _ | s
      · exact ⟨false, rfl⟩
      · exact ⟨_, rfl⟩
  · intro hp
    rw [VerifyN, hp]

/-- C10 witness: a 10-byte input is parsed as a length error and
`Verify` returns `false` without touching it. -/
theorem claim_C10_witness :
    (∃ r : Bool, VerifyN zeroOracle ⟨1, [], List.replicate 32 0⟩ (List.replicate 10 0) [] = some r) ∧
      VerifyN zeroOracle ⟨1, [], List.replicate 32 0⟩ (List.replicate 10 0) [] = some false :=
  ⟨(claim_C10_verify_total zeroOracle ⟨1, [], List.replicate 32 0⟩ (List.replicate 10 0) []).1,
    (claim_C10_verify_total zeroOracle ⟨1, [], List.replicate 32 0⟩ (List.replicate 10 0) []).2
      (by decide)⟩

/-! ## Claim C4: the length check of `Verify`

The parser accepts any length whose floor-quotient matches the height, so
up to 31 trailing bytes are ignored rather than rejected; the amended
statement is the exact acceptance condition.  The counterexample uses an
all-zero "signature" with 5 trailing bytes under the degenerate zero
oracle, for which verification succeeds. -/

/-- C4 (amended): `Verify` returns `false` for every `b` with
`⌊(len(b) − 2180) / 32⌋ ≠ H mod 256` — equivalently, whenever `len(b)` is
outside `[4 + 32·(68+H), 4 + 32·(68+H) + 31]` (for `H < 256`). -/
theorem claim_C4_amended (o : HashOracle) (pk : PublicKey) (b msg : Bytes)
    (h : Int.fdiv ((b.length : Int) - (4 + n + wlen * n : Nat)) 32 ≠ ((u8 pk.Height : Nat) : Int)) :
    VerifyN o pk b msg = some false := by
  rw [VerifyN, bytes2sigN, if_pos h]

/-- C4 amended witness: the empty byte string is rejected. -/
theorem claim_C4_amended_witness :
    VerifyN zeroOracle ⟨1, [], List.replicate 32 0⟩ [] [] = some false :=
  claim_C4_amended zeroOracle ⟨1, [], List.replicate 32 0⟩ [] [] (by decide)

/-! Evaluation lemmas for the degenerate zero oracle: every derived hash
collapses to the 32-byte zero string, so a concrete `Verify` run can be
evaluated without walking full-size signature buffers. -/

theorem prfSum_zero (seed input : Bytes) : prfSum zeroOracle seed input = List.replicate 32 0 :=
  rfl

theorem hashF_zero (key msg : Bytes) : hashF zeroOracle key msg = List.replicate 32 0 := rfl

theorem hashH_zero (key l r : Bytes) : hashH zeroOracle key l r = List.replicate 32 0 := rfl

theorem hashMsg_zero (r msg : Bytes) : hashMsg zeroOracle r msg = List.replicate 32 0 := rfl

theorem randHash_zero (pub l r : Bytes) (a : Addr) :
    randHash zeroOracle pub l r a = List.replicate 32 0 := rfl

theorem chain_zero (pub : Bytes) (a : Addr) (x : Bytes) (s k : Nat) (hk : k ≠ 0) :
    chain zeroOracle pub a x s k = List.replicate 32 0 := by
  induction k generalizing x s with
  | zero => exact absurd rfl hk
  | succ k ih =>
    rw [chain]
    rcases Nat.eq_zero_or_pos k with h0 | hpos
    · subst h0; rfl
    · exact ih _ _ (by omega)

theorem ltreeGo_short (o : HashOracle) (ps : Bytes) (a : Addr) (hgt fuel : Nat)
    (pk : List Bytes) (h1 : pk.length ≤ 1) :
    ltreeGo o ps a hgt fuel pk = pk.getD 0 [] := by
  cases fuel with
  | zero => rfl
  | succ f => rw [ltreeGo, if_pos h1]

theorem ltreeGo_zero (ps : Bytes) (a : Addr) : ∀ (fuel hgt : Nat) (pk : List Bytes),
    2 ≤ pk.length → pk.length ≤ fuel →
    ltreeGo zeroOracle ps a hgt fuel pk = List.replicate 32 0 := by
  intro fuel
  induction fuel with
  | zero => intro hgt pk h2 hf; omega
  | succ f ih =>
    intro hgt pk h2 hf
    rw [ltreeGo, if_neg (by omega)]
    by_cases hl : 2 ≤ (ltreeLevel zeroOracle ps a hgt pk).length
    · exact ih _ _ hl (by rw [ltreeLevel_length]; omega)
    · have hl1 : (ltreeLevel zeroOracle ps a hgt pk).length = pk.length / 2 + pk.length % 2 :=
        ltreeLevel_length ..
      rw [ltreeGo_short _ _ _ _ _ _ (by omega)]
      rw [ltreeLevel]
      have hhalf : 1 ≤ pk.length / 2 := by omega
      rw [List.getD_append]
      · have h0 : (0 : Nat) ∈ List.range (pk.length / 2) := List.mem_range.mpr hhalf
        rcases hr : List.range (pk.length / 2) with _ | ⟨r0, rs⟩
        · rw [hr] at h0; cases h0
        · have : r0 = 0 := by
            have := List.range_succ_eq_map (pk.length / 2 - 1)
            rw [show pk.length / 2 - 1 + 1 = pk.length / 2 by omega] at this
            rw [this] at hr
            exact (List.cons_eq_cons.mp hr).1.symm
          subst this
          simp [randHash_zero]
      · simpa using hhalf

theorem ltree_zero (ps : Bytes) (a : Addr) (pk : List Bytes) (h2 : 2 ≤ pk.length) :
    ltree zeroOracle ps a pk = List.replicate 32 0 :=
  ltreeGo_zero ps a pk.length 0 pk h2 le_rfl

theorem wotsPKFromSig_zero (ps hm : Bytes) (sig : List Bytes) (a : Addr)
    (hs : ∀ i, i < wlen → sig.getD i [] = List.replicate 32 0) :
    wotsPKFromSig zeroOracle ps hm sig a = List.replicate wlen (List.replicate 32 0) := by
  rw [wotsPKFromSig]
  have : ∀ i ∈ List.range wlen,
      chain zeroOracle ps (addrSet a adrChain i) (sig.getD i [])
        ((msgDigits hm).getD i 0) (15 - (msgDigits hm).getD i 0) = List.replicate 32 0 := by
    intro i hi
    rw [List.mem_range] at hi
    by_cases hd : 15 - (msgDigits hm).getD i 0 = 0
    · rw [hd, chain, hs i hi]
    · exact chain_zero _ _ _ _ _ hd
  rw [List.map_congr_left this, List.map_const', List.length_range]

theorem rootLevels_zero (ps : Bytes) (a2 : Addr) (auth : List Bytes) (k : Nat) (idx : Nat) :
    rootLevels zeroOracle ps a2 auth k (List.replicate 32 0) idx = List.replicate 32 0 := by
  induction auth generalizing k idx with
  | nil => rfl
  | cons a rest ih =>
    rw [rootLevels]
    rcases Nat.eq_zero_or_pos (idx % 2) with h0 | hpos
    · rw [if_pos h0, randHash_zero]; exact ih ..
    · rw [if_neg (by omega), randHash_zero]; exact ih ..

theorem rootFromSigN_zero (ps : Bytes) (idx0 : Nat) (hm : Bytes) (body : XSigBody)
    (hs : ∀ i, i < wlen → body.sig.getD i [] = List.replicate 32 0) :
    rootFromSigN zeroOracle ps idx0 hm body 0 0 = List.replicate 32 0 := by
  rw [rootFromSigN, wotsPKFromSig_zero _ _ _ _ hs,
    ltree_zero _ _ _ (by rw [List.length_replicate]; decide)]
  exact rootLevels_zero ..

theorem getD_replicate_lt {α : Type} (k i : Nat) (x d : α) (h : i < k) :
    (List.replicate k x).getD i d = x := by
  simp [List.getD_eq_getElem?_getD, List.getElem?_replicate, h]

set_option maxRecDepth 10000 in
/-- The concrete parse of the all-zero 2217-byte input at height 1. -/
theorem bytes2sigN_zero_2217 :
    bytes2sigN (List.replicate 2217 0) (u8 1) =
      some (some ⟨0, List.replicate 32 0,
        ⟨List.replicate 67 (List.replicate 32 0), List.replicate 1 (List.replicate 32 0)⟩⟩) := by
  rw [bytes2sigN]
  rw [if_neg (by rw [List.length_replicate]; decide)]
  have hbb : sliceB (List.replicate 2217 0) (4 + n) (List.replicate 2217 (0:Nat)).length =
      some (List.replicate 2181 0) := by
    rw [sliceB, List.length_replicate, if_pos (by simp only [n]; omega),
      List.drop_replicate, List.take_replicate]
    norm_num [n]
  have h1 : (List.range wlen).mapM (fun i =>
      sliceB (List.replicate 2181 0) (i * n) ((i + 1) * n)) =
      some (List.replicate wlen (List.replicate 32 0)) := by
    rw [mapM_eq_some_of_forall _ (fun _ => List.replicate 32 0)]
    · rw [List.map_const', List.length_range]
    · intro i hi
      rw [List.mem_range] at hi
      rw [sliceB, if_pos]
      · rw [List.drop_replicate, List.take_replicate]
        have hmin : min ((i + 1) * n - i * n) (2181 - i * n) = 32 := by
          simp only [n, wlen] at hi ⊢
          omega
        rw [hmin]
      · rw [List.length_replicate]
        simp only [n, wlen] at hi ⊢
        omega
  have h2 : (List.range 1).mapM (fun i =>
      sliceB (List.replicate 2181 0) (n * wlen + n * i) (n * wlen + n * (i + 1))) =
      some (List.replicate 1 (List.replicate 32 0)) := by
    rw [mapM_eq_some_of_forall _ (fun _ => List.replicate 32 0)]
    · rw [List.map_const', List.length_range]
    · intro i hi
      rw [List.mem_range] at hi
      rw [sliceB, if_pos]
      · rw [List.drop_replicate, List.take_replicate]
        have hmin : min ((n * wlen + n * (i + 1)) - (n * wlen + n * i)) (2181 - (n * wlen + n * i)) = 32 := by
          simp only [n, wlen] at hi ⊢
          omega
        rw [hmin]
      · rw [List.length_replicate]
        simp only [n, wlen] at hi ⊢
        omega
  have hbody : bytes2sigBodyN (List.replicate 2181 0)
      (Int.fdiv (((List.replicate 2217 (0:Nat)).length : Int) - (4 + n + wlen * n : Nat)) 32).toNat =
      some ⟨List.replicate 67 (List.replicate 32 0), List.replicate 1 (List.replicate 32 0)⟩ := by
    have : (Int.fdiv (((List.replicate 2217 (0:Nat)).length : Int) - (4 + n + wlen * n : Nat)) 32).toNat = 1 := by
      rw [List.length_replicate]; decide
    rw [bytes2sigBodyN, this]
    simp only [h1, h2, Option.bind_eq_bind', Option.some_bind']
    rfl
  have hu : u32BE (List.replicate 2217 0) = some 0 := by
    rw [u32BE, if_pos (by rw [List.length_replicate]; omega)]
    rw [getD_replicate_lt _ _ _ _ (by omega), getD_replicate_lt _ _ _ _ (by omega),
      getD_replicate_lt _ _ _ _ (by omega), getD_replicate_lt _ _ _ _ (by omega)]
  have hrr : sliceB (List.replicate 2217 0) 4 (4 + n) = some (List.replicate 32 0) := by
    rw [sliceB, if_pos (by rw [List.length_replicate]; simp only [n]; omega),
      List.drop_replicate, List.take_replicate]
    norm_num [n]
  simp only [hbb, hbody, hu, hrr, Option.bind_eq_bind', Option.some_bind']
  rfl

set_option maxRecDepth 10000 in
/-- C4 counterexample: the claim as stated is false.  A 2217-byte input —
which is not `4 + 32·(68+1) = 2212` bytes — passes the parse for `H = 1`
(the parser floor-divides, ignoring up to 31 trailing bytes) and, with
the zero oracle and an all-zero public root, `Verify` returns `true`. -/
theorem claim_C4_cex :
    (List.replicate 2217 (0:Nat)).length ≠ 4 + 32 * (68 + 1) ∧
      VerifyN zeroOracle ⟨1, [], List.replicate 32 0⟩ (List.replicate 2217 0) [] = some true := by
  refine ⟨by rw [List.length_replicate]; omega, ?_⟩
  rw [VerifyN]
  simp only [bytes2sigN_zero_2217]
  rw [rootFromSigN_zero]
  · decide
  · intro i hi
    exact getD_replicate_lt _ _ _ _ (by simpa [wlen] using hi)

/-! ## Claim C9: the index sequence of emitted signatures -/

theorem u32_u32_add (a b : Nat) : u32 (u32 a + b) = u32 (a + b) := by
  simp only [u32]
  omega

theorem writeAt_pos_le_length (buf src : Bytes) (pos : Nat) (h : pos ≤ buf.length) :
    (writeAt buf src pos).length = buf.length := by
  simp only [writeAt_eq_take, List.length_append, List.length_take, List.length_drop]
  omega

theorem writeAt_take_of_le (buf src : Bytes) (pos m : Nat) (h : m ≤ pos) :
    (writeAt buf src pos).take m = buf.take m := by
  rw [writeAt_eq_take, List.append_assoc, List.take_append_eq_append_take, List.take_take,
    Nat.min_eq_left h]
  rcases le_or_lt m (buf.take pos).length with hm | hm
  · rw [Nat.sub_eq_zero_of_le hm, List.take_zero, List.append_nil]
  · rw [List.length_take] at hm
    have hbuf : buf.length < m := by omega
    rw [List.take_of_length_le (le_of_lt hbuf), List.take_of_length_le (by simp; omega),
      List.drop_of_length_le (by omega)]
    simp
    omega

theorem writeAt_zero_take (buf src : Bytes) (h : src.length ≤ buf.length) :
    (writeAt buf src 0).take src.length = src := by
  rw [writeAt_eq_take, List.take_zero, List.nil_append, Nat.sub_zero,
    List.take_of_length_le h, List.take_append_of_le_length (le_refl _),
    List.take_length]

/-- The first four bytes of `xmssSig.bytes()` are the big-endian index. -/
theorem sigBytes_take4 (x : XSig) : (sigBytes x).take 4 = be32 x.index := by
  rw [sigBytes]
  rw [writeAt_take_of_le _ _ _ _ (by simp [n]), writeAt_take_of_le _ _ _ _ (by omega)]
  have h4 : (be32 x.index).length ≤
      (List.replicate (4 + n + wlen * n + x.body.auth.length * n) (0:Nat)).length := by
    rw [be32_length, List.length_replicate]
    omega
  have := writeAt_zero_take (List.replicate (4 + n + wlen * n + x.body.auth.length * n) 0)
    (be32 x.index) h4
  rwa [be32_length] at this

theorem refreshOne_leaf (m m' : Merkle) (h : Nat) (hr : refreshOne m h = some m') :
    m'.leaf = m.leaf ∧ m'.height = m.height := by
  rw [refreshOne] at hr
  split at hr
  · rcases hstk : (m.stacks'.getD h junkStack).stk with _ | ⟨t, ts⟩ <;> rw [hstk] at hr
    · cases hr
    · cases hr
      exact ⟨rfl, rfl⟩
  · cases hr
    exact ⟨rfl, rfl⟩

theorem refreshAuth_foldl_leaf (l : List Nat) :
    ∀ (m m' : Merkle), l.foldlM refreshOne m = some m' →
      m'.leaf = m.leaf ∧ m'.height = m.height := by
  induction l with
  | nil =>
    intro m m' hr
    cases hr
    exact ⟨rfl, rfl⟩
  | cons h t ih =>
    intro m m' hr
    rw [List.foldlM_cons] at hr
    rcases h1 : refreshOne m h with _ | m1 <;> rw [h1] at hr
    · cases hr
    · have h2 := ih m1 m' hr
      have h3 := refreshOne_leaf m m1 h h1
      exact ⟨h2.1.trans h3.1, h2.2.trans h3.2⟩

theorem refreshAuthN_leaf (m m' : Merkle) (hr : refreshAuthN m = some m') :
    m'.leaf = m.leaf ∧ m'.height = m.height :=
  refreshAuth_foldl_leaf _ m m' hr

theorem buildIter_leaf (o : HashOracle) (ws ps : Bytes) (k : Nat) :
    ∀ m : Merkle, ((buildOnce o ws ps)^[k] m).leaf = m.leaf ∧
      ((buildOnce o ws ps)^[k] m).height = m.height := by
  induction k with
  | zero => intro m; exact ⟨rfl, rfl⟩
  | succ k ih =>
    intro m
    rw [Function.iterate_succ_apply]
    exact ⟨(ih _).1.trans rfl, (ih _).2.trans rfl⟩

theorem buildN_leaf (o : HashOracle) (ws ps : Bytes) (m : Merkle) :
    (buildN o ws ps m).leaf = m.leaf ∧ (buildN o ws ps m).height = m.height :=
  buildIter_leaf o ws ps (buildSteps m.height) m

theorem traverseN_leaf (o : HashOracle) (ws ps : Bytes) (m m' : Merkle)
    (ht : traverseN o ws ps m = some m') : m'.leaf = u32 (m.leaf + 1) := by
  rw [traverseN] at ht
  split at ht
  · cases ht
  · next m1 h1 =>
    rw [Option.some.injEq] at ht
    rw [← ht]
    have h2 := refreshAuthN_leaf m m1 h1
    have h3 := buildN_leaf o ws ps m1
    show u32 ((buildN o ws ps m1).leaf + 1) = u32 (m.leaf + 1)
    rw [h3.1, h2.1]

/-- One `Sign`: the emitted bytes start with the big-endian current leaf
index, and the leaf index advances by one. -/
theorem SignN_step (o : HashOracle) (k k' : PrivateKey) (msg sig : Bytes)
    (hs : SignN o k msg = some (sig, k')) :
    sig.take 4 = be32 k.m.leaf ∧ k'.m.leaf = u32 (k.m.leaf + 1) := by
  rw [SignN] at hs
  rcases h1 : traverseN o k.wotsSeed k.pub.publicSeed k.m with _ | m1 <;> rw [h1] at hs
  · cases hs
  · cases hs
    exact ⟨sigBytes_take4 _, traverseN_leaf _ _ _ _ _ h1⟩

theorem signSeq_take4 (o : HashOracle) :
    ∀ (msgs : List Bytes) (k : PrivateKey) (sigs : List Bytes) (kf : PrivateKey),
      signSeqN o k msgs = some (sigs, kf) →
      sigs.length = msgs.length ∧
        ∀ i, i < sigs.length → (sigs.getD i []).take 4 = be32 (k.m.leaf + i) := by
  intro msgs
  induction msgs with
  | nil =>
    intro k sigs kf hr
    cases hr
    exact ⟨rfl, fun i hi => absurd hi (by simp)⟩
  | cons msg rest ih =>
    intro k sigs kf hr
    rw [signSeqN] at hr
    rcases h1 : SignN o k msg with _ | p <;> rw [h1] at hr
    · cases hr
    · obtain ⟨s, k1⟩ := p
      simp only [Option.bind_eq_bind', Option.some_bind'] at hr
      rcases h2 : signSeqN o k1 rest with _ | q <;> rw [h2] at hr
      · cases hr
      · obtain ⟨ss, kf1⟩ := q
        simp only [Option.some_bind'] at hr
        cases hr
        obtain ⟨hlen, hidx⟩ := ih k1 ss kf h2
        obtain ⟨htake, hleaf⟩ := SignN_step o k k1 msg s h1
        refine ⟨by simp [hlen], fun i hi => ?_⟩
        cases i with
        | zero => simpa using htake
        | succ i =>
          have hi' : i < ss.length := by simpa using hi
          have hh := hidx i hi'
          rw [hleaf] at hh
          simp only [List.getD_cons_succ]
          rw [hh, be32, be32, u32_u32_add]
          congr 1
          simp only [u32]
          omega

theorem toByte4_eq (x : Nat) :
    toByte x 4 = [x / 16777216 % 256, x / 65536 % 256, x / 256 % 256, x % 256] := by
  simp [toByte, Nat.div_div_eq_div_mul]

theorem u32BE_of_take4 (l : Bytes) (v : Nat) (hv : v < 4294967296)
    (h : l.take 4 = be32 v) : u32BE l = some v := by
  have hlen : 4 ≤ l.length := by
    have := congrArg List.length h
    rw [List.length_take, be32_length] at this
    omega
  rw [u32BE, if_pos hlen]
  have hg : ∀ i, i < 4 → l.getD i 0 = (be32 v).getD i 0 := by
    intro i hi
    rw [← h]
    simp [List.getD_eq_getElem?_getD, List.getElem?_take, hi]
  rw [hg 0 (by omega), hg 1 (by omega), hg 2 (by omega), hg 3 (by omega)]
  rw [be32, u32, Nat.mod_eq_of_lt hv, toByte4_eq]
  simp only [List.getD_cons_zero, List.getD_cons_succ]
  congr 1
  omega

theorem initMerkleN_leaf (o : HashOracle) (ws ps : Bytes) (np h layer tree : Nat)
    (m : Merkle) (r : Bytes) (hi : initMerkleN o ws ps np h layer tree = some (m, r)) :
    m.leaf = 0 ∧ m.height = h := by
  rw [initMerkleN] at hi
  simp only [bind, Option.bind_eq_some'] at hi
  obtain ⟨nt, _, hi⟩ := hi
  obtain ⟨st, _, hi⟩ := hi
  rcases hstk : (st.s.update o ws ps 1).stk with _ | ⟨t, ts⟩ <;> rw [hstk] at hi
  · cases hi
  · cases hi
    exact ⟨rfl, rfl⟩

theorem NewXMSSKeyPairN_leaf (o : HashOracle) (np ht : Nat) (seed : Bytes)
    (k : PrivateKey) (pk : PublicKey) (hk : NewXMSSKeyPairN o np ht seed = some (k, pk)) :
    k.m.leaf = 0 ∧ k.m.height = ht := by
  rw [NewXMSSKeyPairN, NewXMSSKeyPairWithParamsN] at hk
  simp only [bind, Option.bind_eq_some'] at hk
  obtain ⟨⟨m, rt⟩, hm, hk⟩ := hk
  cases hk
  exact initMerkleN_leaf _ _ _ _ _ _ _ _ _ hm

/-- C9: the `idx` field serialised into the `i`-th signature emitted by a
freshly generated key equals `i` (both as the 4 leading big-endian bytes
and under the verifier's decoder), and consequently the decoded indices
are strictly increasing along the emitted sequence. -/
theorem claim_C9_idx_sequence (o : HashOracle) (nproc height : Nat) (seed : Bytes)
    (k0 : PrivateKey) (pk : PublicKey) (msgs : List Bytes) (sigs : List Bytes)
    (kf : PrivateKey) (i : Nat)
    (hkg : NewXMSSKeyPairN o nproc height seed = some (k0, pk))
    (hsig : signSeqN o k0 msgs = some (sigs, kf))
    (hi : i < sigs.length) (h32 : i < 4294967296) :
    (sigs.getD i []).take 4 = be32 i ∧ u32BE (sigs.getD i []) = some i ∧
      ∀ j, j < i → ∀ a b, u32BE (sigs.getD j []) = some a →
        u32BE (sigs.getD i []) = some b → a < b := by
  have hleaf0 := (NewXMSSKeyPairN_leaf o nproc height seed k0 pk hkg).1
  obtain ⟨hlen, hidx⟩ := signSeq_take4 o msgs k0 sigs kf hsig
  have htake : ∀ j, j < sigs.length → (sigs.getD j []).take 4 = be32 j := by
    intro j hj
    have := hidx j hj
    rwa [hleaf0, Nat.zero_add] at this
  have hdec : ∀ j, j < sigs.length → j < 4294967296 → u32BE (sigs.getD j []) = some j :=
    fun j hj hj32 => u32BE_of_take4 _ j hj32 (htake j hj)
  refine ⟨htake i hi, hdec i hi h32, fun j hj a b ha hb => ?_⟩
  rw [hdec j (by omega) (by omega)] at ha
  rw [hdec i hi h32] at hb
  cases ha
  cases hb
  omega

/-- Placeholder values for `Option.getD` in closed instantiations. -/
def junkKey : PrivateKey := ⟨⟨0, [], []⟩, [], [], ⟨0, 0, [], [], 0, 0⟩⟩

def junkKP : PrivateKey × PublicKey := (junkKey, ⟨0, [], []⟩)

def junkSK : List Bytes × PrivateKey := ([], junkKey)

theorem some_getD {α : Type} (o : Option α) (d : α) (h : o.isSome) :
    o = some (o.getD d) := by
  cases o
  · cases h
  · rfl

/-! ## Claim C5: signature length and layout -/

theorem writeAt_within (buf src : Bytes) (pos : Nat) (h : pos + src.length ≤ buf.length) :
    writeAt buf src pos = buf.take pos ++ src ++ buf.drop (pos + src.length) := by
  rw [writeAt_eq_take,
    List.take_of_length_le (show src.length ≤ buf.length - pos by omega)]

theorem join_length_32 (l : List Bytes) (h : ∀ x ∈ l, x.length = 32) :
    l.flatten.length = 32 * l.length := by
  induction l with
  | nil => rfl
  | cons a t ih =>
    rw [List.flatten_cons, List.length_append, h a (List.mem_cons_self ..),
      ih (fun x hx => h x (List.mem_cons_of_mem _ hx)), List.length_cons]
    ring

theorem getD_map_range {α : Type} (f : Nat → α) (k i : Nat) (d : α) (h : i < k) :
    ((List.range k).map f).getD i d = f i := by
  rw [List.getD_eq_getElem?_getD, List.getElem?_map, List.getElem?_range h]
  rfl

/-- The consecutive-block write loop of `xmssSigBody.bytes()`: writing
blocks of size `L` at offsets `base, base + L, …` into a buffer equals
splicing their concatenation at `base`. -/
theorem foldl_writeAt_blocks (L : Nat) :
    ∀ (bl : List Bytes) (buf : Bytes) (base : Nat),
      (∀ x ∈ bl, x.length = L) → base + L * bl.length ≤ buf.length →
      (List.range bl.length).foldl (fun bf i => writeAt bf (bl.getD i []) (base + i * L)) buf =
        buf.take base ++ bl.flatten ++ buf.drop (base + L * bl.length) := by
  intro bl
  induction bl with
  | nil =>
    intro buf base hlen hle
    simp only [List.length_nil, List.range_zero, List.foldl_nil, List.flatten_nil,
      List.append_nil, Nat.mul_zero, Nat.add_zero]
    rw [List.take_append_drop]
  | cons x xs ih =>
    intro buf base hlen hle
    have hx : x.length = L := hlen x (List.mem_cons_self ..)
    have hxs : ∀ y ∈ xs, y.length = L := fun y hy => hlen y (List.mem_cons_of_mem _ hy)
    simp only [List.length_cons, Nat.mul_add, Nat.mul_one] at hle
    rw [List.length_cons, List.range_succ_eq_map, List.foldl_cons, List.foldl_map]
    have hfun : (fun (bf : Bytes) i => writeAt bf ((x :: xs).getD (i + 1) []) (base + (i + 1) * L)) =
        (fun (bf : Bytes) i => writeAt bf (xs.getD i []) ((base + L) + i * L)) := by
      funext bf i
      rw [List.getD_cons_succ]
      congr 1
      ring
    have hbase : base + 0 * L = base := by ring
    rw [hbase, hfun, List.getD_cons_zero]
    have hb1 : base + x.length ≤ buf.length := by
      rw [hx]
      omega
    have hw : writeAt buf x base = buf.take base ++ x ++ buf.drop (base + L) := by
      rw [writeAt_within buf x base hb1, hx]
    have hlenw : (writeAt buf x base).length = buf.length :=
      writeAt_pos_le_length _ _ _ (by omega)
    have hle2 : (base + L) + L * xs.length ≤ (writeAt buf x base).length := by
      rw [hlenw]
      omega
    rw [ih (writeAt buf x base) (base + L) hxs hle2]
    rw [hw]
    have htk : base ≤ (buf.take base).length := by
      rw [List.length_take]
      omega
    have h1 : (buf.take base ++ x ++ buf.drop (base + L)).take (base + L) =
        buf.take base ++ x := by
      rw [List.append_assoc, List.take_append_eq_append_take, List.take_take]
      have hmin : min (base + L) base = base := by omega
      rw [hmin, List.length_take]
      have hb : base ≤ buf.length := by omega
      rw [Nat.min_eq_left hb, List.take_append_eq_append_take]
      have : base + L - base = L := by omega
      rw [this, ← hx, List.take_length, hx]
      have : L - x.length = 0 := by omega
      rw [hx] at this
      rw [this, List.take_zero, List.append_nil]
    have h2 : (buf.take base ++ x ++ buf.drop (base + L)).drop (base + L + L * xs.length) =
        buf.drop (base + L + L * xs.length) := by
      rw [List.drop_append_eq_append_drop, List.drop_append_eq_append_drop]
      rw [List.drop_of_length_le (by rw [List.length_take]; omega)]
      rw [List.drop_of_length_le (by rw [hx]; rw [List.length_take]; omega)]
      rw [List.drop_drop, List.nil_append, List.nil_append]
      rw [List.length_append, List.length_take, hx]
      congr 1
      omega
    have hLl : base + L * (xs.length + 1) = base + L + L * xs.length := by
      ring
    rw [hLl, h1, h2, List.flatten_cons, ← List.append_assoc]

/-- `xmssSigBody.bytes()` with well-sized blocks is the plain
concatenation of the WOTS+ blocks and the auth blocks. -/
theorem bodyBytes_eq (b : XSigBody) (hslen : b.sig.length = wlen)
    (hs32 : ∀ x ∈ b.sig, x.length = 32) (ha32 : ∀ x ∈ b.auth, x.length = 32) :
    bodyBytes b = b.sig.flatten ++ b.auth.flatten := by
  rw [bodyBytes]
  have hjs : b.sig.flatten.length = 32 * b.sig.length := join_length_32 _ hs32
  have hja : b.auth.flatten.length = 32 * b.auth.length := join_length_32 _ ha32
  have hf1 := foldl_writeAt_blocks 32 b.sig
    (List.replicate (wlen * n + b.auth.length * n) 0) 0 hs32
    (by rw [List.length_replicate, hslen]; simp only [n, wlen]; omega)
  simp only [Nat.zero_add] at hf1
  have hfun1 : (fun (bf : Bytes) i => writeAt bf (b.sig.getD i []) (i * n)) =
      (fun (bf : Bytes) i => writeAt bf (b.sig.getD i []) (i * 32)) := by
    funext bf i
    rfl
  rw [hfun1, hf1, List.take_zero, List.nil_append, List.drop_replicate]
  have hdrop : wlen * n + b.auth.length * n - 32 * b.sig.length = 32 * b.auth.length := by
    rw [hslen]
    simp only [n, wlen]
    omega
  rw [hdrop]
  have hf2 := foldl_writeAt_blocks 32 b.auth
    (b.sig.flatten ++ List.replicate (32 * b.auth.length) 0) (wlen * n) ha32
    (by rw [List.length_append, List.length_replicate, hjs, hslen]; simp only [n, wlen]; omega)
  have hfun2 : (fun (bf : Bytes) i => writeAt bf (b.auth.getD i []) (wlen * n + i * n)) =
      (fun (bf : Bytes) i => writeAt bf (b.auth.getD i []) (wlen * n + i * 32)) := by
    funext bf i
    rfl
  rw [hfun2, hf2]
  have ht : (b.sig.flatten ++ List.replicate (32 * b.auth.length) 0).take (wlen * n) =
      b.sig.flatten := by
    rw [List.take_append_eq_append_take, List.take_of_length_le (by rw [hjs, hslen]; simp only [n, wlen]; omega)]
    rw [hjs, hslen]
    have : wlen * n - 32 * wlen = 0 := by simp only [n, wlen]
    rw [this, List.take_zero, List.append_nil]
  have hd : (b.sig.flatten ++ List.replicate (32 * b.auth.length) 0).drop
      (wlen * n + 32 * b.auth.length) = [] := by
    apply List.drop_of_length_le
    rw [List.length_append, List.length_replicate, hjs, hslen]
    simp only [n, wlen]
    omega
  rw [ht, hd, List.append_nil]

/-- `xmssSig.bytes()` with well-sized components lays the signature out
as `idx | r | wotsSig | auth`. -/
theorem sigBytes_eq (x : XSig) (hr : x.r.length = 32) (hslen : x.body.sig.length = wlen)
    (hs32 : ∀ y ∈ x.body.sig, y.length = 32) (ha32 : ∀ y ∈ x.body.auth, y.length = 32) :
    sigBytes x = be32 x.index ++ x.r ++ x.body.sig.flatten ++ x.body.auth.flatten := by
  rw [sigBytes, bodyBytes_eq x.body hslen hs32 ha32]
  set size := 4 + n + wlen * n + x.body.auth.length * n with hsize
  have hsz : size = 2180 + 32 * x.body.auth.length := by
    rw [hsize]
    simp only [n, wlen]
    omega
  have hw1 : writeAt (List.replicate size 0) (be32 x.index) 0 =
      be32 x.index ++ List.replicate (size - 4) 0 := by
    rw [writeAt_within _ _ _ (by rw [be32_length, List.length_replicate]; omega),
      List.take_zero, List.nil_append, be32_length, List.drop_replicate]
  have hl1 : (be32 x.index ++ List.replicate (size - 4) (0:Nat)).length = size := by
    rw [List.length_append, be32_length, List.length_replicate]
    omega
  have hw2 : writeAt (be32 x.index ++ List.replicate (size - 4) 0) x.r 4 =
      be32 x.index ++ x.r ++ List.replicate (size - 36) 0 := by
    rw [writeAt_within _ _ _ (by rw [hl1, hr]; omega), hr]
    have ht4 : (be32 x.index ++ List.replicate (size - 4) (0:Nat)).take 4 = be32 x.index := by
      rw [List.take_append_eq_append_take, List.take_of_length_le (by rw [be32_length]),
        be32_length, Nat.sub_self, List.take_zero, List.append_nil]
    have hd36 : (be32 x.index ++ List.replicate (size - 4) (0:Nat)).drop 36 =
        List.replicate (size - 36) 0 := by
      rw [List.drop_append_eq_append_drop, List.drop_of_length_le (by rw [be32_length]; omega),
        be32_length, List.nil_append, List.drop_replicate]
      congr 1
    rw [ht4, hd36, List.append_assoc]
  rw [hw1, hw2]
  have hl2 : (be32 x.index ++ x.r ++ List.replicate (size - 36) (0:Nat)).length = size := by
    rw [List.length_append, List.length_append, be32_length, hr, List.length_replicate]
    omega
  have hflat : (x.body.sig.flatten ++ x.body.auth.flatten).length =
      2144 + 32 * x.body.auth.length := by
    rw [List.length_append, join_length_32 _ hs32, join_length_32 _ ha32, hslen]
    simp only [wlen]
  rw [writeAt_within _ _ _ (by rw [hl2, hflat]; simp only [n]; omega)]
  have ht36 : (be32 x.index ++ x.r ++ List.replicate (size - 36) (0:Nat)).take (4 + n) =
      be32 x.index ++ x.r := by
    rw [List.take_append_eq_append_take,
      List.take_of_length_le (by rw [List.length_append, be32_length, hr]; simp only [n]; omega),
      List.length_append, be32_length, hr]
    have : 4 + n - (4 + 32) = 0 := by simp only [n]
    rw [this, List.take_zero, List.append_nil]
  have hdall : (be32 x.index ++ x.r ++ List.replicate (size - 36) (0:Nat)).drop
      (4 + n + (x.body.sig.flatten ++ x.body.auth.flatten).length) = [] := by
    apply List.drop_of_length_le
    rw [hl2, hflat]
    simp only [n]
    omega
  rw [ht36, hdall, List.append_nil, List.append_assoc, List.append_assoc, List.append_assoc]

theorem chain_length_32 (o : HashOracle) (pub : Bytes) (a : Addr) (x : Bytes) (s : Nat)
    (hx : x.length = 32) : ∀ k, (chain o pub a x s k).length = 32 := by
  intro k
  induction k generalizing x s with
  | zero => exact hx
  | succ k ih => exact ih _ _ (fit_length ..)

/-- C5: every byte string returned by `Sign` from a key of height `H`
(whose auth path holds `H` 32-byte nodes — true of every key the library
constructs) has length exactly `4 + 32·(68 + H)` and is laid out
big-endian as `idx (4) | r (32) | wotsSig (67 × 32) | auth (H × 32)`. -/
theorem claim_C5_sig_layout (o : HashOracle) (k : PrivateKey) (msg sig : Bytes)
    (k' : PrivateKey) (hauthlen : k.m.auth.length = k.pub.Height)
    (hauth32 : ∀ x ∈ k.m.auth, x.length = 32)
    (hs : SignN o k msg = some (sig, k')) :
    sig.length = 4 + 32 * (68 + k.pub.Height) ∧
      ∃ rr ws, sig = be32 k.m.leaf ++ rr ++ List.flatten ws ++ List.flatten k.m.auth ∧
        rr.length = 32 ∧ ws.length = wlen ∧ ∀ x ∈ ws, x.length = 32 := by
  rw [SignN] at hs
  rcases h1 : traverseN o k.wotsSeed k.pub.publicSeed k.m with _ | m1 <;> rw [h1] at hs
  · cases hs
  · have hsig : sig = sigBytes ⟨k.m.leaf,
        (writeAt (writeAt (writeAt (List.replicate 96 0)
          (prfSum o k.msgSeed (writeAt (List.replicate 32 0) (be32 k.m.leaf) 28)) 0)
          k.pub.root 32) (writeAt (List.replicate 32 0) (be32 k.m.leaf) 28) 64).take 32,
        createSignatureBodyN o k (hashMsg o
          (writeAt (writeAt (writeAt (List.replicate 96 0)
            (prfSum o k.msgSeed (writeAt (List.replicate 32 0) (be32 k.m.leaf) 28)) 0)
            k.pub.root 32) (writeAt (List.replicate 32 0) (be32 k.m.leaf) 28) 64) msg)⟩ := by
      cases hs
      rfl
    have hr32 : ((writeAt (writeAt (writeAt (List.replicate 96 0)
        (prfSum o k.msgSeed (writeAt (List.replicate 32 0) (be32 k.m.leaf) 28)) 0)
        k.pub.root 32) (writeAt (List.replicate 32 0) (be32 k.m.leaf) 28) 64).take 32).length
        = 32 := by
      rw [List.length_take,
        writeAt_pos_le_length _ _ _ (by
          rw [writeAt_pos_le_length _ _ _ (by
              rw [writeAt_pos_le_length _ _ _ (by rw [List.length_replicate]; omega)]
              rw [List.length_replicate]; omega),
            writeAt_pos_le_length _ _ _ (by rw [List.length_replicate]; omega),
            List.length_replicate]
          omega)]
      rw [writeAt_pos_le_length _ _ _ (by
          rw [writeAt_pos_le_length _ _ _ (by rw [List.length_replicate]; omega),
            List.length_replicate]
          omega),
        writeAt_pos_le_length _ _ _ (by rw [List.length_replicate]; omega),
        List.length_replicate]
      omega
    set hm := hashMsg o
      (writeAt (writeAt (writeAt (List.replicate 96 0)
        (prfSum o k.msgSeed (writeAt (List.replicate 32 0) (be32 k.m.leaf) 28)) 0)
        k.pub.root 32) (writeAt (List.replicate 32 0) (be32 k.m.leaf) 28) 64) msg with hhm
    have hbody : (createSignatureBodyN o k hm).sig.length = wlen ∧
        (∀ y ∈ (createSignatureBodyN o k hm).sig, y.length = 32) ∧
        (createSignatureBodyN o k hm).auth = k.m.auth := by
      rw [createSignatureBodyN]
      refine ⟨by rw [wotsSign, List.length_map, List.length_range], fun y hy => ?_, rfl⟩
      rw [wotsSign] at hy
      obtain ⟨i, hi, hyv⟩ := List.mem_map.mp hy
      rw [List.mem_range] at hi
      rw [← hyv]
      apply chain_length_32
      rw [wotsSK, getD_map_range _ _ _ _ hi]
      exact fit_length ..
    obtain ⟨hb1, hb2, hb3⟩ := hbody
    have heq := sigBytes_eq ⟨k.m.leaf, _, createSignatureBodyN o k hm⟩ hr32 hb1 hb2
      (by rw [hb3]; exact hauth32)
    rw [hsig]
    constructor
    · rw [heq]
      simp only [List.length_append, be32_length, hr32,
        join_length_32 _ hb2, join_length_32 _ (hb3 ▸ hauth32 : ∀ x ∈ (createSignatureBodyN o k hm).auth, x.length = 32), hb1, hb3, hauthlen]
      simp only [wlen]
      rw [join_length_32 _ hauth32, hauthlen]
      ring
    · refine ⟨_, (createSignatureBodyN o k hm).sig, ?_, hr32, hb1, hb2⟩
      rw [heq, hb3]

set_option maxRecDepth 40000 in
/-- C9 witness: in a concrete run at `H = 1` with two signatures, the
second signature decodes to index 1. -/
theorem claim_C9_witness :
    u32BE ((((signSeqN nilOracle ((NewXMSSKeyPairN nilOracle 0 1 []).getD junkKP).1
      [[], []]).getD junkSK).1).getD 1 []) = some 1 := by
  have h1 : NewXMSSKeyPairN nilOracle 0 1 [] =
      some ((NewXMSSKeyPairN nilOracle 0 1 []).getD junkKP) :=
    some_getD _ _ (by decide)
  have h2 : signSeqN nilOracle ((NewXMSSKeyPairN nilOracle 0 1 []).getD junkKP).1 [[], []] =
      some ((signSeqN nilOracle ((NewXMSSKeyPairN nilOracle 0 1 []).getD junkKP).1
        [[], []]).getD junkSK) :=
    some_getD _ _ (by decide)
  exact (claim_C9_idx_sequence nilOracle 0 1 []
    ((NewXMSSKeyPairN nilOracle 0 1 []).getD junkKP).1
    ((NewXMSSKeyPairN nilOracle 0 1 []).getD junkKP).2
    [[], []]
    ((signSeqN nilOracle ((NewXMSSKeyPairN nilOracle 0 1 []).getD junkKP).1 [[], []]).getD junkSK).1
    ((signSeqN nilOracle ((NewXMSSKeyPairN nilOracle 0 1 []).getD junkKP).1 [[], []]).getD junkSK).2
    1 h1 h2 (by decide) (by omega)).2.1

theorem getD_set_ne {α : Type} (l : List α) (i j : Nat) (x d : α) (h : i ≠ j) :
    (l.set i x).getD j d = l.getD j d := by
  rw [List.getD_eq_getElem?_getD, List.getElem?_set_ne h, ← List.getD_eq_getElem?_getD]

theorem getD_set_self_lt {α : Type} (l : List α) (i : Nat) (x d : α) (h : i < l.length) :
    (l.set i x).getD i d = x := by
  rw [List.getD_eq_getElem?_getD, List.getElem?_set_self h]
  rfl

/-- What one boundary pass of `refreshAuth` does to the entry it touches,
stated with the raw `uint32` arithmetic of the source. -/
def RefreshPost (leaf h : Nat) (s0 : MStack) (a0 : Bytes) (s1 : MStack) (a1 : Bytes) : Prop :=
  if u32 (leaf + 1) &&& u32 (u32 (2 ^ h) + 4294967295) = 0 then
    ∃ t rest, s0.stk = t :: rest ∧ a1 = t.node ∧
      s1 = s0.reinit ((u32 (u32 (leaf + 1) + u32 (2 ^ h))) ^^^ u32 (2 ^ h)) h
  else a1 = a0 ∧ s1 = s0

theorem refreshOne_preserve (m m' : Merkle) (h : Nat) (hr : refreshOne m h = some m') :
    m'.leaf = m.leaf ∧ m'.height = m.height ∧
    m'.stacks'.length = m.stacks'.length ∧ m'.auth.length = m.auth.length ∧
    ∀ j, j ≠ h →
      m'.stacks'.getD j junkStack = m.stacks'.getD j junkStack ∧
      m'.auth.getD j [] = m.auth.getD j [] := by
  rw [refreshOne] at hr
  split at hr
  · rcases hstk : (m.stacks'.getD h junkStack).stk with _ | ⟨t, ts⟩ <;> rw [hstk] at hr
    · cases hr
    · rw [Option.some.injEq] at hr
      rw [← hr]
      refine ⟨rfl, rfl, by simp, by simp, fun j hj => ?_⟩
      exact ⟨getD_set_ne _ _ _ _ _ (fun c => hj c.symm),
        getD_set_ne _ _ _ _ _ (fun c => hj c.symm)⟩
  · rw [Option.some.injEq] at hr
    rw [← hr]
    exact ⟨rfl, rfl, rfl, rfl, fun j _ => ⟨rfl, rfl⟩⟩

theorem refreshOne_at (m m' : Merkle) (h : Nat) (hs : h < m.stacks'.length)
    (ha : h < m.auth.length) (hr : refreshOne m h = some m') :
    RefreshPost m.leaf h (m.stacks'.getD h junkStack) (m.auth.getD h [])
      (m'.stacks'.getD h junkStack) (m'.auth.getD h []) := by
  rw [refreshOne] at hr
  rw [RefreshPost]
  split at hr
  case isTrue hc =>
    rw [if_pos hc]
    rcases hstk : (m.stacks'.getD h junkStack).stk with _ | ⟨t, ts⟩ <;> rw [hstk] at hr
    · cases hr
    · rw [Option.some.injEq] at hr
      rw [← hr]
      exact ⟨t, ts, rfl, getD_set_self_lt _ _ _ _ ha, getD_set_self_lt _ _ _ _ hs⟩
  case isFalse hc =>
    rw [if_neg hc]
    rw [Option.some.injEq] at hr
    rw [← hr]
    exact ⟨rfl, rfl⟩

/-- The whole `refreshAuth` fold over a duplicate-free list of heights:
entries outside the list are untouched, and each listed height gets the
one-boundary postcondition relative to the initial state. -/
theorem refresh_fold_at : ∀ (l : List Nat) (m m' : Merkle), l.Nodup →
    l.foldlM refreshOne m = some m' →
    (∀ j, j ∉ l → m'.stacks'.getD j junkStack = m.stacks'.getD j junkStack ∧
      m'.auth.getD j [] = m.auth.getD j []) ∧
    ∀ h ∈ l, h < m.stacks'.length → h < m.auth.length →
      RefreshPost m.leaf h (m.stacks'.getD h junkStack) (m.auth.getD h [])
        (m'.stacks'.getD h junkStack) (m'.auth.getD h []) := by
  intro l
  induction l with
  | nil =>
    intro m m' _ hr
    cases hr
    exact ⟨fun j _ => ⟨rfl, rfl⟩, fun h hh => absurd hh (List.not_mem_nil _)⟩
  | cons a t ih =>
    intro m m' hnd hr
    rw [List.foldlM_cons] at hr
    rcases h1 : refreshOne m a with _ | m1 <;> rw [h1] at hr
    · cases hr
    · obtain ⟨hna, hndt⟩ := List.nodup_cons.mp hnd
      obtain ⟨ihskip, ihat⟩ := ih m1 m' hndt hr
      have hp := refreshOne_preserve m m1 a h1
      refine ⟨fun j hj => ?_, fun h hh hls hla => ?_⟩
      · obtain ⟨e1, e2⟩ := ihskip j (fun c => hj (List.mem_cons_of_mem _ c))
        obtain ⟨f1, f2⟩ := hp.2.2.2.2 j (fun c => hj (c ▸ List.mem_cons_self ..))
        exact ⟨e1.trans f1, e2.trans f2⟩
      · rcases List.mem_cons.mp hh with rfl | hht
        · have hbase := refreshOne_at m m1 h hls hla h1
          obtain ⟨e1, e2⟩ := ihskip h hna
          rw [e1, e2]
          exact hbase
        · have hha : h ≠ a := fun c => hna (c ▸ hht)
          obtain ⟨f1, f2⟩ := hp.2.2.2.2 h hha
          have hrec := ihat h hht (by rw [hp.2.2.1]; exact hls)
            (by rw [hp.2.2.2.1]; exact hla)
          rw [hp.1, f1, f2] at hrec
          exact hrec

/-- C6: for a traversal state whose `H`-entry stack and auth arrays match
its height, with `H ≤ 32` and no `uint32` overflow over the window,
`refreshAuth` succeeds only by, at exactly the heights `h` with
`(leaf + 1) mod 2^h = 0`, replacing `auth[h]` with the top node of
`stacks[h]` and re-initialising `stacks[h]` to start index
`((leaf+1) + 2^h) XOR 2^h` and target height `h`, while every other
height keeps both its auth node and its stack unchanged. -/
theorem claim_C6_refresh_auth (m m' : Merkle)
    (hlen : m.stacks'.length = m.height) (halen : m.auth.length = m.height)
    (hht : m.height ≤ 32) (hlf : m.leaf + 1 + 2 ^ m.height ≤ 2 ^ 32)
    (hr : refreshAuthN m = some m') (h : Nat) (hh : h < m.height) :
    if (m.leaf + 1) % 2 ^ h = 0 then
      ∃ t rest, (m.stacks'.getD h junkStack).stk = t :: rest ∧
        m'.auth.getD h [] = t.node ∧
        m'.stacks'.getD h junkStack =
          (m.stacks'.getD h junkStack).reinit ((m.leaf + 1 + 2 ^ h) ^^^ 2 ^ h) h
    else m'.auth.getD h [] = m.auth.getD h [] ∧
      m'.stacks'.getD h junkStack = m.stacks'.getD h junkStack := by
  have h2h1 : 1 ≤ 2 ^ h := Nat.one_le_two_pow
  have h2hlt : 2 ^ h < 2 ^ m.height := Nat.pow_lt_pow_right one_lt_two hh
  have h2H : 2 ^ m.height ≤ 2 ^ 32 := Nat.pow_le_pow_right (by omega) hht
  have h32 : (2 : Nat) ^ 32 = 4294967296 := by norm_num
  rw [h32] at hlf h2H
  have hu1 : u32 (m.leaf + 1) = m.leaf + 1 := Nat.mod_eq_of_lt (by omega)
  have hu2 : u32 (2 ^ h) = 2 ^ h := Nat.mod_eq_of_lt (by omega)
  have hmask : u32 (2 ^ h + 4294967295) = 2 ^ h - 1 := by
    rw [u32]
    omega
  have hraw := (refresh_fold_at (List.range m.height) m m' (List.nodup_range _) hr).2 h
    (List.mem_range.mpr hh) (by omega) (by omega)
  rw [RefreshPost, hu2, hmask, hu1, Nat.and_pow_two_sub_one_eq_mod] at hraw
  have hstart : u32 (m.leaf + 1 + 2 ^ h) = m.leaf + 1 + 2 ^ h :=
    Nat.mod_eq_of_lt (by omega)
  rw [hstart] at hraw
  exact hraw

/-- The first-argmin scan of `build`, generalised: fold `if f h < min`
over `range k` from `(M, 0)`. -/
def scanF (f : Nat → Nat) (M k : Nat) : Nat × Nat :=
  (List.range k).foldl (fun (p : Nat × Nat) h => if f h < p.1 then (f h, h) else p) (M, 0)

theorem scanF_spec (f : Nat → Nat) (M : Nat) : ∀ k,
    ((scanF f M k).1 = M ∧ (scanF f M k).2 = 0 ∧ ∀ h, h < k → M ≤ f h) ∨
    ((scanF f M k).2 < k ∧ f (scanF f M k).2 = (scanF f M k).1 ∧ (scanF f M k).1 < M ∧
      (∀ h, h < k → (scanF f M k).1 ≤ f h) ∧
      ∀ h, h < (scanF f M k).2 → (scanF f M k).1 < f h) := by
  intro k
  induction k with
  | zero => exact Or.inl ⟨rfl, rfl, fun h hh => absurd hh (by omega)⟩
  | succ n ih =>
    have hstep : scanF f M (n + 1) =
        (if f n < (scanF f M n).1 then (f n, n) else scanF f M n) := by
      rw [scanF, scanF, List.range_succ, List.foldl_append, List.foldl_cons, List.foldl_nil]
    rcases ih with ⟨e1, e2, e3⟩ | ⟨e1, e2, e3, e4, e5⟩
    · by_cases hc : f n < (scanF f M n).1
      · right
        rw [hstep, if_pos hc]
        rw [e1] at hc
        refine ⟨by omega, rfl, hc, fun h hh => ?_, fun h hh => ?_⟩
        · rcases Nat.lt_succ_iff_lt_or_eq.mp hh with hlt | rfl
          · have := e3 h hlt
            omega
          · exact le_rfl
        · have := e3 h hh
          omega
      · left
        rw [hstep, if_neg hc]
        rw [e1] at hc
        refine ⟨e1, e2, fun h hh => ?_⟩
        rcases Nat.lt_succ_iff_lt_or_eq.mp hh with hlt | rfl
        · exact e3 h hlt
        · omega
    · right
      by_cases hc : f n < (scanF f M n).1
      · rw [hstep, if_pos hc]
        refine ⟨by omega, rfl, by omega, fun h hh => ?_, fun h hh => ?_⟩
        · rcases Nat.lt_succ_iff_lt_or_eq.mp hh with hlt | rfl
          · have := e4 h hlt
            omega
          · exact le_rfl
        · have := e4 h hh
          omega
      · rw [hstep, if_neg hc]
        refine ⟨by omega, e2, e3, fun h hh => ?_, e5⟩
        rcases Nat.lt_succ_iff_lt_or_eq.mp hh with hlt | rfl
        · exact e4 h hlt
        · omega

theorem scanLow_eq_scanF (m : Merkle) :
    scanLow m = scanF (fun h => (m.stacks'.getD h junkStack).low) 4294967295 m.height := rfl

theorem foldl_min_le (l : List Nat) : ∀ a : Nat,
    List.foldl min a l ≤ a ∧ (∀ x ∈ l, List.foldl min a l ≤ x) ∧
    (List.foldl min a l = a ∨ List.foldl min a l ∈ l) := by
  induction l with
  | nil => exact fun a => ⟨le_rfl, fun x hx => absurd hx (List.not_mem_nil _), Or.inl rfl⟩
  | cons b t ih =>
    intro a
    obtain ⟨h1, h2, h3⟩ := ih (min a b)
    rw [List.foldl_cons]
    refine ⟨le_trans h1 (min_le_left ..), fun x hx => ?_, ?_⟩
    · rcases List.mem_cons.mp hx with rfl | hxt
      · exact le_trans h1 (min_le_right ..)
      · exact h2 x hxt
    · rcases h3 with he | hm
      · rcases le_total a b with hab | hba
        · exact Or.inl (by rw [he, min_eq_left hab])
        · exact Or.inr (by rw [he, min_eq_right hba]; exact List.mem_cons_self ..)
      · exact Or.inr (List.mem_cons_of_mem _ hm)

/-- C7: with `1 ≤ H ≤ 2^31` the `uint32` loop bound `2H − 1` of `build`
does not wrap, so `build` performs exactly `2H − 1` scheduler iterations;
each iteration applies one `goUpdate(1)` step to the stack whose `low()`
value is minimal at that moment (the `low < min` scan keeps the first,
i.e. lowest, minimiser); and `low()` is the target height on an empty
stack, `MaxUint32` (never scheduled) once the top has reached the target
height, and otherwise the smallest node height on the stack. -/
theorem claim_C7_build_schedule (o : HashOracle) (ws ps : Bytes) (m : Merkle)
    (hh1 : 1 ≤ m.height) (hh2 : m.height ≤ 2 ^ 31) :
    buildN o ws ps m = (buildOnce o ws ps)^[2 * m.height - 1] m ∧
    (∀ mm : Merkle, buildOnce o ws ps mm =
      { mm with stacks' := (mm.stacks'.set (scanLow mm).2
          ((mm.stacks'.getD (scanLow mm).2 junkStack).update o ws ps 1)) }) ∧
    (∀ mm : Merkle, (scanLow mm).1 < 4294967295 →
      (scanLow mm).2 < mm.height ∧
      (mm.stacks'.getD (scanLow mm).2 junkStack).low = (scanLow mm).1 ∧
      (∀ h, h < mm.height → (scanLow mm).1 ≤ (mm.stacks'.getD h junkStack).low) ∧
      (∀ h, h < (scanLow mm).2 → (scanLow mm).1 < (mm.stacks'.getD h junkStack).low)) ∧
    (∀ s : MStack,
      (s.stk = [] → s.low = s.height) ∧
      (∀ t ts, s.stk = t :: ts → t.height = s.height → s.low = 4294967295) ∧
      (∀ t ts, s.stk = t :: ts → t.height ≠ s.height →
        (∀ nd ∈ s.stk, nd.height < 4294967295) →
        (∀ nd ∈ s.stk, s.low ≤ nd.height) ∧ ∃ nd ∈ s.stk, s.low = nd.height)) := by
  refine ⟨?_, fun mm => rfl, fun mm hlt => ?_, fun s => ?_⟩
  · rw [buildN]
    have hb : buildSteps m.height = 2 * m.height - 1 := by
      rw [buildSteps, u32]
      have : (2 : Nat) ^ 31 = 2147483648 := by norm_num
      omega
    rw [hb]
  · rw [scanLow_eq_scanF] at hlt ⊢
    rcases scanF_spec (fun h => (mm.stacks'.getD h junkStack).low) 4294967295 mm.height with
      ⟨e1, _, _⟩ | ⟨e1, e2, _, e4, e5⟩
    · omega
    · exact ⟨e1, e2, e4, e5⟩
  · refine ⟨fun he => by rw [MStack.low, he], fun t ts hstk hth => ?_, fun t ts hstk hth hbd => ?_⟩
    · rw [MStack.low, hstk]
      show (if t.height = s.height then 4294967295
        else List.foldl min 4294967295 (List.map NH.height (t :: ts))) = 4294967295
      rw [if_pos hth]
    · have hlow : s.low = ((t :: ts).map NH.height).foldl min 4294967295 := by
        rw [MStack.low, hstk]
        show (if t.height = s.height then 4294967295
          else List.foldl min 4294967295 (List.map NH.height (t :: ts))) = _
        rw [if_neg hth]
      obtain ⟨_, hx, hmem⟩ := foldl_min_le ((t :: ts).map NH.height) 4294967295
      rw [hstk]
      constructor
      · intro nd hnd
        rw [hlow]
        exact hx nd.height (List.mem_map_of_mem _ hnd)
      · rcases hmem with he | hm
        · have hlt : s.low ≤ t.height := by
            rw [hlow]
            exact hx t.height (List.mem_map_of_mem _ (List.mem_cons_self ..))
          have hbt : t.height < 4294967295 := hbd t (by rw [hstk]; exact List.mem_cons_self ..)
          rw [hlow, he] at hlt
          omega
        · obtain ⟨nd, hnd, hh⟩ := List.mem_map.mp hm
          exact ⟨nd, hnd, by rw [hlow]; exact hh.symm⟩

/-! ## Merkle tree nodes and the treehash lemma (source: `merkle.go`) -/

def junkNH : NH := ⟨[], 0, 0⟩

/-- The merkle tree node at height `k`, index `idx`: a leaf for `k = 0`,
otherwise the `randHash` of its two children at the combine address. -/
def treeNode (o : HashOracle) (ws ps : Bytes) (layer tree : Nat) : Nat → Nat → Bytes
  | 0, idx => fit 32 (leafCalc o ws ps layer tree idx)
  | k + 1, idx =>
    randHash o ps (treeNode o ws ps layer tree k (2 * idx))
      (treeNode o ws ps layer tree k (2 * idx + 1)) (combineAddr layer tree k idx)

/-- The tree node as a stack entry. -/
def treeNH (o : HashOracle) (ws ps : Bytes) (layer tree k idx : Nat) : NH :=
  ⟨treeNode o ws ps layer tree k idx, k, idx⟩

theorem treeNode_succ (o : HashOracle) (ws ps : Bytes) (layer tree k idx : Nat) :
    treeNode o ws ps layer tree (k + 1) idx =
      randHash o ps (treeNode o ws ps layer tree k (2 * idx))
        (treeNode o ws ps layer tree k (2 * idx + 1)) (combineAddr layer tree k idx) := rfl

theorem combine_treeNH (o : HashOracle) (ws ps : Bytes) (layer tree k idx : Nat)
    (hk : k + 1 < 4294967296) :
    combineTop o ps layer tree (treeNH o ws ps layer tree k (2 * idx))
      (treeNH o ws ps layer tree k (2 * idx + 1)) = treeNH o ws ps layer tree (k + 1) idx := by
  have hsh : (2 * idx + 1) >>> 1 = idx := by
    rw [Nat.shiftRight_one]
    omega
  rw [combineTop, treeNH, treeNH, treeNH]
  show (⟨randHash o ps (treeNode o ws ps layer tree k (2 * idx))
      (treeNode o ws ps layer tree k (2 * idx + 1))
      (combineAddr layer tree k ((2 * idx + 1) >>> 1)),
    u32 (k + 1), (2 * idx + 1) >>> 1⟩ : NH) =
    ⟨treeNode o ws ps layer tree (k + 1) idx, k + 1, idx⟩
  rw [hsh, treeNode_succ, u32, Nat.mod_eq_of_lt hk]

/-- The node built by a treehash run whose `j`-th elementary leaf is
`f j`: combining adjacent windows. -/
def wNode (o : HashOracle) (ps : Bytes) (layer tree : Nat) (f : Nat → NH) : Nat → Nat → NH
  | 0, j0 => f j0
  | k + 1, j0 =>
    combineTop o ps layer tree (wNode o ps layer tree f k j0)
      (wNode o ps layer tree f k (j0 + 2 ^ k))

/-- The shape of a treehash stack: node heights strictly increase from
the top down. -/
def StrictHeights : List NH → Prop
  | a :: b :: rest => a.height < b.height ∧ StrictHeights (b :: rest)
  | _ => True

theorem wNode_height (o : HashOracle) (ps : Bytes) (layer tree : Nat) (f : Nat → NH)
    (β : Nat) (hf : ∀ m, (f m).height = β) : ∀ k j0, β + k < 4294967296 →
    (wNode o ps layer tree f k j0).height = β + k := by
  intro k
  induction k with
  | zero =>
    intro j0 _
    rw [wNode, hf]
    omega
  | succ k ih =>
    intro j0 h
    rw [wNode]
    show u32 ((wNode o ps layer tree f k (j0 + 2 ^ k)).height + 1) = β + (k + 1)
    rw [ih _ (by omega), u32, Nat.mod_eq_of_lt (by omega)]
    omega

theorem wNode_align (o : HashOracle) (ws ps : Bytes) (layer tree β c0 : Nat) (f : Nat → NH) :
    ∀ k idx j0,
      (∀ j, j0 ≤ j → j < j0 + 2 ^ k → f j = treeNH o ws ps layer tree β (c0 + j)) →
      c0 + j0 = idx * 2 ^ k → β + k ≤ 31 →
      wNode o ps layer tree f k j0 = treeNH o ws ps layer tree (β + k) idx := by
  intro k
  induction k with
  | zero =>
    intro idx j0 hfw hc _
    rw [wNode, hfw j0 le_rfl (by omega)]
    have : c0 + j0 = idx := by
      rw [hc]
      ring
    rw [this, Nat.add_zero]
  | succ k ih =>
    intro idx j0 hfw hc hb
    have hpow : (2 : Nat) ^ (k + 1) = 2 ^ k + 2 ^ k := by
      rw [pow_succ]
      ring
    have h1 : c0 + j0 = (2 * idx) * 2 ^ k := by
      rw [hc, hpow]
      ring
    have h2 : c0 + (j0 + 2 ^ k) = (2 * idx + 1) * 2 ^ k := by
      rw [← Nat.add_assoc, h1]
      ring
    rw [wNode,
      ih (2 * idx) j0 (fun j hj1 hj2 => hfw j hj1 (by omega)) h1 (by omega),
      ih (2 * idx + 1) (j0 + 2 ^ k) (fun j hj1 hj2 => hfw j (by omega) (by omega)) h2 (by omega)]
    have := combine_treeNH o ws ps layer tree (β + k) idx (by omega)
    rw [show β + (k + 1) = (β + k) + 1 from rfl]
    exact this

theorem updateSubG_eq_iterate {α : Type} (o : HashOracle) (ps : Bytes)
    (mk : MStack → α → MStack × α) (nn : Nat) (s : MStack) (x : α)
    (hnd : s.doneB = false) :
    updateSubG o ps mk nn s x = (stepG o ps mk)^[nn] (s, x) := by
  simp [updateSubG, hnd]

theorem doneB_nil (h leaf layer tree : Nat) :
    (⟨[], h, leaf, layer, tree⟩ : MStack).doneB = false := rfl

theorem doneB_cons_ne (t : NH) (ts : List NH) (h leaf layer tree : Nat)
    (hne : t.height ≠ h) :
    (⟨t :: ts, h, leaf, layer, tree⟩ : MStack).doneB = false := by
  rw [MStack.doneB]
  show decide (t.height = h) = false
  exact decide_eq_false hne

/-- The treehash lemma: from a well-shaped stack, `2^(k+1) − 1`
elementary steps of `updateSub`'s loop body build exactly the combined
window node over the next `2^k` produced leaves and push it, advancing
the leaf source by `2^k`.  The maker `mk` is abstract: its `j`-th call
pushes `f j` at height `β` and advances the cursor/auxiliary state. -/
theorem treehash_gen {α : Type} (o : HashOracle) (ps : Bytes) (layer tree H β : Nat)
    (f : Nat → NH) (mk : MStack → α → MStack × α) (cur : Nat → Nat) (aux : Nat → α)
    (jmax : Nat) (hf : ∀ m, (f m).height = β)
    (hmk : ∀ j, j < jmax → ∀ stk' : List NH,
      mk ⟨stk', H, cur j, layer, tree⟩ (aux j) =
        (⟨f j :: stk', H, cur (j + 1), layer, tree⟩, aux (j + 1))) :
    ∀ k j0 (rest : List NH), β + k < 4294967296 → j0 + 2 ^ k ≤ jmax →
      StrictHeights rest →
      (∀ t ts, rest = t :: ts → β + k ≤ t.height) →
      (stepG o ps mk)^[2 ^ (k + 1) - 1] (⟨rest, H, cur j0, layer, tree⟩, aux j0) =
        (⟨wNode o ps layer tree f k j0 :: rest, H, cur (j0 + 2 ^ k), layer, tree⟩,
          aux (j0 + 2 ^ k)) := by
  intro k
  induction k with
  | zero =>
    intro j0 rest hb hj hstr hsafe
    have h1 : (2 : Nat) ^ (0 + 1) - 1 = 1 := by norm_num
    rw [h1, Function.iterate_one]
    have hres : (stepG o ps mk) (⟨rest, H, cur j0, layer, tree⟩, aux j0) =
        mk ⟨rest, H, cur j0, layer, tree⟩ (aux j0) := by
      match rest, hstr with
      | [], _ => rfl
      | [t], _ => rfl
      | r :: l :: ts, ⟨hrl, _⟩ =>
        show (if l.height = r.height
            then ((⟨combineTop o ps layer tree l r :: ts, H, cur j0, layer, tree⟩ : MStack),
              aux j0)
            else mk ⟨r :: l :: ts, H, cur j0, layer, tree⟩ (aux j0)) =
          mk ⟨r :: l :: ts, H, cur j0, layer, tree⟩ (aux j0)
        rw [if_neg (by omega)]
    rw [hres, hmk j0 (by omega), wNode]
    have h20 : j0 + 2 ^ 0 = j0 + 1 := by norm_num
    rw [h20]
  | succ k ih =>
    intro j0 rest hb hj hstr hsafe
    have hp1 : (1 : Nat) ≤ 2 ^ (k + 1) := Nat.one_le_two_pow
    have hpow : (2 : Nat) ^ (k + 1) = 2 ^ k + 2 ^ k := by
      rw [pow_succ]
      ring
    have hsplit : (2 : Nat) ^ (k + 1 + 1) - 1 = 1 + ((2 ^ (k + 1) - 1) + (2 ^ (k + 1) - 1)) := by
      have h2 : (2 : Nat) ^ (k + 1 + 1) = 2 ^ (k + 1) + 2 ^ (k + 1) := by
        rw [pow_succ]
        ring
      omega
    rw [hsplit, Function.iterate_add_apply, Function.iterate_add_apply]
    rw [ih j0 rest (by omega) (by omega) hstr
      (fun t ts h => by have := hsafe t ts h; omega)]
    have hstr2 : StrictHeights (wNode o ps layer tree f k j0 :: rest) := by
      rcases rest with _ | ⟨t, ts⟩
      · show True
        trivial
      · show (wNode o ps layer tree f k j0).height < t.height ∧ StrictHeights (t :: ts)
        have h1 := hsafe t ts rfl
        rw [wNode_height o ps layer tree f β hf k j0 (by omega)]
        exact ⟨by omega, hstr⟩
    have hsafe2 : ∀ t ts, wNode o ps layer tree f k j0 :: rest = t :: ts →
        β + k ≤ t.height := by
      intro t ts h
      obtain ⟨h1, _⟩ := List.cons_eq_cons.mp h
      rw [← h1, wNode_height o ps layer tree f β hf k j0 (by omega)]
    rw [ih (j0 + 2 ^ k) (wNode o ps layer tree f k j0 :: rest) (by omega) (by omega)
      hstr2 hsafe2]
    rw [Function.iterate_one]
    have hw1 := wNode_height o ps layer tree f β hf k j0 (by omega)
    have hw2 := wNode_height o ps layer tree f β hf k (j0 + 2 ^ k) (by omega)
    show (if (wNode o ps layer tree f k j0).height =
          (wNode o ps layer tree f k (j0 + 2 ^ k)).height
        then ((⟨combineTop o ps layer tree (wNode o ps layer tree f k j0)
            (wNode o ps layer tree f k (j0 + 2 ^ k)) :: rest, H,
            cur (j0 + 2 ^ k + 2 ^ k), layer, tree⟩ : MStack), aux (j0 + 2 ^ k + 2 ^ k))
        else mk ⟨wNode o ps layer tree f k (j0 + 2 ^ k) :: wNode o ps layer tree f k j0 :: rest,
            H, cur (j0 + 2 ^ k + 2 ^ k), layer, tree⟩ (aux (j0 + 2 ^ k + 2 ^ k))) =
      (⟨wNode o ps layer tree f (k + 1) j0 :: rest, H, cur (j0 + 2 ^ (k + 1)), layer, tree⟩,
        aux (j0 + 2 ^ (k + 1)))
    rw [if_pos (by rw [hw1, hw2])]
    rw [wNode]
    have hix : j0 + 2 ^ (k + 1) = j0 + 2 ^ k + 2 ^ k := by omega
    rw [hix]

theorem treeNode_zero (o : HashOracle) (ws ps : Bytes) (layer tree idx : Nat) :
    treeNode o ws ps layer tree 0 idx = fit 32 (leafCalc o ws ps layer tree idx) := rfl

theorem seqLeaf_step (o : HashOracle) (ws ps : Bytes) (layer tree H jmax : Nat)
    (hmax : jmax ≤ 4294967295) :
    ∀ j, j < jmax → ∀ stk' : List NH,
      seqLeaf o ws ps ⟨stk', H, j, layer, tree⟩ () =
        ((⟨treeNH o ws ps layer tree 0 j :: stk', H, j + 1, layer, tree⟩ : MStack), ()) := by
  intro j hj stk'
  show ((⟨(⟨fit 32 (leafCalc o ws ps layer tree j), 0, j⟩ : NH) :: stk', H, u32 (j + 1),
      layer, tree⟩ : MStack), ()) = _
  rw [treeNH, treeNode_zero, u32, Nat.mod_eq_of_lt (by omega)]

theorem update_eq_iterate (o : HashOracle) (ws ps : Bytes) (nn : Nat) (s : MStack)
    (hnd : s.doneB = false) :
    s.update o ws ps nn = ((stepG o ps (seqLeaf o ws ps))^[nn] (s, ())).1 := by
  rw [MStack.update, updateSubG_eq_iterate _ _ _ _ _ _ hnd]

theorem update_one_empty (o : HashOracle) (ws ps : Bytes) (h c layer tree : Nat)
    (hc : c + 1 < 4294967296) :
    (⟨[], h, c, layer, tree⟩ : MStack).update o ws ps 1 =
      ⟨[treeNH o ws ps layer tree 0 c], h, c + 1, layer, tree⟩ := by
  rw [update_eq_iterate _ _ _ _ _ (doneB_nil ..), Function.iterate_one]
  show (⟨(⟨fit 32 (leafCalc o ws ps layer tree c), 0, c⟩ : NH) :: [], h, u32 (c + 1),
      layer, tree⟩ : MStack) = _
  rw [treeNH, treeNode_zero, u32, Nat.mod_eq_of_lt hc]

theorem update_one_combine (o : HashOracle) (ws ps : Bytes) (h c layer tree : Nat)
    (r l : NH) (ts : List NH) (hrl : l.height = r.height) (hne : r.height ≠ h) :
    (⟨r :: l :: ts, h, c, layer, tree⟩ : MStack).update o ws ps 1 =
      ⟨combineTop o ps layer tree l r :: ts, h, c, layer, tree⟩ := by
  rw [update_eq_iterate _ _ _ _ _ (doneB_cons_ne _ _ _ _ _ _ hne), Function.iterate_one]
  show (if l.height = r.height
      then ((⟨combineTop o ps layer tree l r :: ts, h, c, layer, tree⟩ : MStack), ())
      else seqLeaf o ws ps ⟨r :: l :: ts, h, c, layer, tree⟩ ()).1 =
    (⟨combineTop o ps layer tree l r :: ts, h, c, layer, tree⟩ : MStack)
  rw [if_pos hrl]

theorem combine_treeNH0 (o : HashOracle) (ws ps : Bytes) (layer tree k : Nat)
    (hk : k + 1 < 4294967296) :
    combineTop o ps layer tree (treeNH o ws ps layer tree k 0)
      (treeNH o ws ps layer tree k 1) = treeNH o ws ps layer tree (k + 1) 0 := by
  have h := combine_treeNH o ws ps layer tree k 0 hk
  norm_num at h
  exact h

theorem popLeaf_step_full (o : HashOracle) (ws ps : Bytes) (layer tree H β N c : Nat) :
    ∀ j, j < N → ∀ stk' : List NH,
      popLeaf ⟨stk', H, c, layer, tree⟩
          (some (((List.range N).map (fun m => treeNH o ws ps layer tree β (m + 1))).drop j)) =
        ((⟨treeNH o ws ps layer tree β (j + 1) :: stk', H, c, layer, tree⟩ : MStack),
          some (((List.range N).map
            (fun m => treeNH o ws ps layer tree β (m + 1))).drop (j + 1))) := by
  intro j hj stk'
  have hlen : j < ((List.range N).map (fun m => treeNH o ws ps layer tree β (m + 1))).length := by
    simp [hj]
  have hdrop : ((List.range N).map (fun m => treeNH o ws ps layer tree β (m + 1))).drop j =
      treeNH o ws ps layer tree β (j + 1) ::
        ((List.range N).map (fun m => treeNH o ws ps layer tree β (m + 1))).drop (j + 1) := by
    rw [List.drop_eq_getElem_cons hlen]
    congr 1
    simp
  rw [hdrop]
  rfl

theorem update_run_seq (o : HashOracle) (ws ps : Bytes) (layer tree H : Nat)
    (k j0 : Nat) (rest : List NH) (hb : k ≤ 31) (hj : j0 + 2 ^ k ≤ 4294967295)
    (hstr : StrictHeights rest) (hsafe : ∀ t ts, rest = t :: ts → k ≤ t.height)
    (hnd : (⟨rest, H, j0, layer, tree⟩ : MStack).doneB = false) :
    (⟨rest, H, j0, layer, tree⟩ : MStack).update o ws ps (2 ^ (k + 1) - 1) =
      ⟨wNode o ps layer tree (fun j => treeNH o ws ps layer tree 0 j) k j0 :: rest, H,
        j0 + 2 ^ k, layer, tree⟩ := by
  rw [update_eq_iterate _ _ _ _ _ hnd]
  rw [treehash_gen o ps layer tree H 0 (fun j => treeNH o ws ps layer tree 0 j)
    (seqLeaf o ws ps) (fun j => j) (fun _ => ()) (j0 + 2 ^ k)
    (fun m => rfl)
    (fun j hj1 stk' => seqLeaf_step o ws ps layer tree H (j0 + 2 ^ k) hj j hj1 stk')
    k j0 rest (by omega) le_rfl hstr (fun t ts hh => by have := hsafe t ts hh; omega)]

theorem updateSub_run_pop (o : HashOracle) (ws ps : Bytes) (layer tree H β N : Nat)
    (δ j0 : Nat) (rest : List NH) (hb : β + δ ≤ 31) (hj : j0 + 2 ^ δ ≤ N)
    (hstr : StrictHeights rest) (hsafe : ∀ t ts, rest = t :: ts → β + δ ≤ t.height)
    (c : Nat) (hnd : (⟨rest, H, c, layer, tree⟩ : MStack).doneB = false) :
    updateSubG o ps popLeaf (2 ^ (δ + 1) - 1) (⟨rest, H, c, layer, tree⟩ : MStack)
        (some (((List.range N).map (fun m => treeNH o ws ps layer tree β (m + 1))).drop j0)) =
      ((⟨wNode o ps layer tree (fun j => treeNH o ws ps layer tree β (j + 1)) δ j0 :: rest,
          H, c, layer, tree⟩ : MStack),
        some (((List.range N).map
          (fun m => treeNH o ws ps layer tree β (m + 1))).drop (j0 + 2 ^ δ))) := by
  rw [updateSubG_eq_iterate _ _ _ _ _ _ hnd]
  rw [treehash_gen o ps layer tree H β (fun j => treeNH o ws ps layer tree β (j + 1))
    popLeaf (fun _ => c)
    (fun j => some (((List.range N).map (fun m => treeNH o ws ps layer tree β (m + 1))).drop j))
    N (fun m => rfl)
    (fun j hj1 stk' => popLeaf_step_full o ws ps layer tree H β N c j hj1 stk')
    δ j0 rest (by omega) hj hstr hsafe]

theorem wNode_seq_align (o : HashOracle) (ws ps : Bytes) (layer tree k idx j0 : Nat)
    (hj : j0 = idx * 2 ^ k) (hk : k ≤ 31) :
    wNode o ps layer tree (fun j => treeNH o ws ps layer tree 0 j) k j0 =
      treeNH o ws ps layer tree k idx := by
  have h := wNode_align o ws ps layer tree 0 0 (fun j => treeNH o ws ps layer tree 0 j) k idx j0
    (fun j _ _ => by rw [Nat.zero_add]) (by omega) (by omega)
  rw [Nat.zero_add] at h
  exact h

theorem wNode_pop_align (o : HashOracle) (ws ps : Bytes) (layer tree β δ idx j0 : Nat)
    (hj : 1 + j0 = idx * 2 ^ δ) (hk : β + δ ≤ 31) :
    wNode o ps layer tree (fun j => treeNH o ws ps layer tree β (j + 1)) δ j0 =
      treeNH o ws ps layer tree (β + δ) idx :=
  wNode_align o ws ps layer tree β 1 _ δ idx j0
    (fun j _ _ => by rw [Nat.add_comm j 1]) hj (by omega)

/-- The main stack of `initMerkle` before phase `i` (worker threshold
`p`; the cursor freezes at `2^(h-p)` once leaves come from the queue). -/
def phS (o : HashOracle) (ws ps : Bytes) (layer tree h p i : Nat) : MStack :=
  if i = 0 then ⟨[], h, 0, layer, tree⟩
  else ⟨[treeNH o ws ps layer tree (i - 1) 1, treeNH o ws ps layer tree (i - 1) 0], h,
    2 ^ (min i (h - p)), layer, tree⟩

/-- The initial worker-result queue: the subtree roots at height `h−p`
for subtrees `1 … 2^p − 1`. -/
def phQ (o : HashOracle) (ws ps : Bytes) (layer tree h p : Nat) : List NH :=
  (List.range (2 ^ p - 1)).map (fun m => treeNH o ws ps layer tree (h - p) (m + 1))

/-- The whole `initMerkle` loop state before phase `i`. -/
def phSt (o : HashOracle) (ws ps : Bytes) (layer tree h p i : Nat) : InitSt :=
  ⟨phS o ws ps layer tree h p i,
   (List.range i).map (fun j =>
     (⟨[treeNH o ws ps layer tree j 0], j, 2 ^ j, layer, tree⟩ : MStack)),
   (List.range i).map (fun j => fit 32 (treeNode o ws ps layer tree j 1)),
   some ((phQ o ws ps layer tree h p).drop (2 ^ (i - (h - p)) - 1))⟩

theorem phSt_s (o : HashOracle) (ws ps : Bytes) (layer tree h p i : Nat) :
    (phSt o ws ps layer tree h p i).s = phS o ws ps layer tree h p i := rfl

theorem phSt_stacks (o : HashOracle) (ws ps : Bytes) (layer tree h p i : Nat) :
    (phSt o ws ps layer tree h p i).stacks' = (List.range i).map (fun j =>
      (⟨[treeNH o ws ps layer tree j 0], j, 2 ^ j, layer, tree⟩ : MStack)) := rfl

theorem phSt_auth (o : HashOracle) (ws ps : Bytes) (layer tree h p i : Nat) :
    (phSt o ws ps layer tree h p i).auth =
      (List.range i).map (fun j => fit 32 (treeNode o ws ps layer tree j 1)) := rfl

theorem phSt_q (o : HashOracle) (ws ps : Bytes) (layer tree h p i : Nat) :
    (phSt o ws ps layer tree h p i).q =
      some ((phQ o ws ps layer tree h p).drop (2 ^ (i - (h - p)) - 1)) := rfl

theorem treeNH_node (o : HashOracle) (ws ps : Bytes) (layer tree k idx : Nat) :
    (treeNH o ws ps layer tree k idx).node = treeNode o ws ps layer tree k idx := rfl

theorem treeNH_height (o : HashOracle) (ws ps : Bytes) (layer tree k idx : Nat) :
    (treeNH o ws ps layer tree k idx).height = k := rfl

theorem initPhase_closed (o : HashOracle) (ws ps : Bytes) (layer tree h p i : Nat)
    (hp : p < h) (hh : h ≤ 31) (hi : i < h) :
    initPhase o ws ps h p layer tree (phSt o ws ps layer tree h p i) i =
      some (phSt o ws ps layer tree h p (i + 1)) := by
  have h2i1 : (1 : Nat) ≤ 2 ^ i := Nat.one_le_two_pow
  have hpow : (2 : Nat) ^ (i + 1) = 2 ^ i + 2 ^ i := by
    rw [pow_succ]
    ring
  have h31 : (2 : Nat) ^ (i + 1) ≤ 2 ^ 31 := Nat.pow_le_pow_right (by omega) (by omega)
  have h31' : (2 : Nat) ^ 31 = 2147483648 := by norm_num
  have hs1 : (phS o ws ps layer tree h p i).update o ws ps 1 =
      ⟨[treeNH o ws ps layer tree i 0], h, 2 ^ (min i (h - p)), layer, tree⟩ := by
    by_cases hi0 : i = 0
    · subst hi0
      rw [phS, if_pos rfl, update_one_empty o ws ps h 0 layer tree (by omega)]
      simp
    · rw [phS, if_neg hi0,
        update_one_combine o ws ps h (2 ^ min i (h - p)) layer tree
          (treeNH o ws ps layer tree (i - 1) 1) (treeNH o ws ps layer tree (i - 1) 0) [] rfl
          (by show i - 1 ≠ h; omega),
        combine_treeNH0 o ws ps layer tree (i - 1) (by omega)]
      have hii : i - 1 + 1 = i := by omega
      rw [hii]
  have hsafe1 : ∀ t ts, [treeNH o ws ps layer tree i 0] = t :: ts → i ≤ t.height := by
    intro t ts hh'
    obtain ⟨h1, _⟩ := List.cons_eq_cons.mp hh'
    rw [← h1]
    exact le_rfl
  have hu32 : u32 (2 ^ i) = 2 ^ i := Nat.mod_eq_of_lt (by omega)
  have hrs : List.range (i + 1) = List.range i ++ [i] := List.range_succ i
  by_cases hbr : i < h - p
  · have hmin : min i (h - p) = i := by omega
    rw [hmin] at hs1
    have hs2 : (⟨[treeNH o ws ps layer tree i 0], h, 2 ^ i, layer, tree⟩ : MStack).update
        o ws ps (2 ^ (i + 1) - 1) =
        ⟨[treeNH o ws ps layer tree i 1, treeNH o ws ps layer tree i 0], h, 2 ^ (i + 1),
          layer, tree⟩ := by
      rw [update_run_seq o ws ps layer tree h i (2 ^ i) [treeNH o ws ps layer tree i 0]
        (by omega) (by omega) (by show True; trivial) hsafe1
        (doneB_cons_ne _ _ _ _ _ _ (by show i ≠ h; omega))]
      rw [wNode_seq_align o ws ps layer tree i 1 (2 ^ i) (by omega) (by omega)]
      rw [← hpow]
    have hq1 : 2 ^ (i - (h - p)) - 1 = 0 := by
      have : i - (h - p) = 0 := by omega
      rw [this]
      norm_num
    have hq2 : 2 ^ (i + 1 - (h - p)) - 1 = 0 := by
      have : i + 1 - (h - p) = 0 := by omega
      rw [this]
      norm_num
    have hmin2 : min (i + 1) (h - p) = i + 1 := by omega
    simp only [initPhase, phSt_s, phSt_q, phSt_stacks, phSt_auth]
    rw [hs1]
    simp only [if_pos hbr]
    rw [hs2]
    simp only [phSt, phS, if_neg (Nat.succ_ne_zero i), hq1, hq2, hmin2, hu32, hrs,
      Nat.add_sub_cancel, List.map_append, List.map_cons, List.map_nil, treeNH_node,
      List.drop_zero]
  · have hmin : min i (h - p) = h - p := by omega
    rw [hmin] at hs1
    have hδ1 : (1 : Nat) ≤ 2 ^ (i - (h - p)) := Nat.one_le_two_pow
    have hδp : (2 : Nat) ^ (i - (h - p) + 1) ≤ 2 ^ p :=
      Nat.pow_le_pow_right (by omega) (by omega)
    have hp2 : (1 : Nat) ≤ 2 ^ p := Nat.one_le_two_pow
    have hδpow : (2 : Nat) ^ (i - (h - p) + 1) = 2 ^ (i - (h - p)) + 2 ^ (i - (h - p)) := by
      rw [pow_succ]
      ring
    have hsafe1' : ∀ t ts, [treeNH o ws ps layer tree i 0] = t :: ts →
        h - p + (i - (h - p)) ≤ t.height := by
      intro t ts hh'
      obtain ⟨h1, _⟩ := List.cons_eq_cons.mp hh'
      rw [← h1, treeNH_height]
      omega
    have hrun := updateSub_run_pop o ws ps layer tree h (h - p) (2 ^ p - 1)
      (i - (h - p)) (2 ^ (i - (h - p)) - 1) [treeNH o ws ps layer tree i 0]
      (by omega) (by omega) (by show True; trivial) hsafe1' (2 ^ (h - p))
      (doneB_cons_ne _ _ _ _ _ _ (by show i ≠ h; omega))
    rw [wNode_pop_align o ws ps layer tree (h - p) (i - (h - p)) 1 (2 ^ (i - (h - p)) - 1)
      (by omega) (by omega)] at hrun
    have hhpi : h - p + (i - (h - p)) = i := by omega
    rw [hhpi] at hrun
    have hdix : 2 ^ (i - (h - p)) - 1 + 2 ^ (i - (h - p)) = 2 ^ (i + 1 - (h - p)) - 1 := by
      have : i + 1 - (h - p) = i - (h - p) + 1 := by omega
      rw [this, hδpow]
      omega
    rw [hdix] at hrun
    have hmin2 : min (i + 1) (h - p) = h - p := by omega
    simp only [initPhase, phSt_s, phSt_q, phSt_stacks, phSt_auth]
    rw [hs1]
    simp only [if_neg hbr, phQ]
    rw [hrun]
    simp only [phSt, phS, if_neg (Nat.succ_ne_zero i), hmin2, hu32, hrs, phQ,
      Nat.add_sub_cancel, List.map_append, List.map_cons, List.map_nil, treeNH_node]

theorem foldlM_range_step {σ : Type} (f : σ → Nat → Option σ) (g : Nat → σ) :
    ∀ h : Nat, (∀ i, i < h → f (g i) i = some (g (i + 1))) →
    (List.range h).foldlM f (g 0) = some (g h) := by
  intro h
  induction h with
  | zero => intro _; rfl
  | succ n ih =>
    intro hstep
    rw [List.range_succ, List.foldlM_append, ih (fun i hi => hstep i (by omega))]
    show [n].foldlM f (g n) = some (g (n + 1))
    rw [List.foldlM_cons, hstep n (by omega)]
    rfl

theorem workerTop_closed (o : HashOracle) (ws ps : Bytes) (h p layer tree j : Nat)
    (hp : p < h) (hh : h ≤ 31) (hj : j + 1 < 2 ^ p) :
    workerTop o ws ps h p layer tree (j + 1) =
      some (treeNH o ws ps layer tree (h - p) (j + 1)) := by
  have hhp1 : (1 : Nat) ≤ 2 ^ (h - p) := Nat.one_le_two_pow
  have hmul : 2 ^ (h - p) * 2 ^ p = 2 ^ h := by
    rw [← pow_add]
    congr 1
    omega
  have hhb : (2 : Nat) ^ h ≤ 2 ^ 31 := Nat.pow_le_pow_right (by omega) hh
  have h31' : (2 : Nat) ^ 31 = 2147483648 := by norm_num
  have hlt : 2 ^ (h - p) * (j + 1) + 2 ^ (h - p) ≤ 2 ^ h := by
    have he : 2 ^ (h - p) * (j + 1) + 2 ^ (h - p) = 2 ^ (h - p) * (j + 2) := by ring
    rw [he]
    calc 2 ^ (h - p) * (j + 2) ≤ 2 ^ (h - p) * 2 ^ p := Nat.mul_le_mul_left _ (by omega)
      _ = 2 ^ h := hmul
  have hu1 : u32 (2 ^ (h - p)) = 2 ^ (h - p) := Nat.mod_eq_of_lt (by
    have := Nat.pow_le_pow_right (show 1 ≤ 2 by omega) (show h - p ≤ 31 by omega)
    omega)
  rw [workerTop, hu1]
  have hu2 : u32 (2 ^ (h - p) * (j + 1)) = 2 ^ (h - p) * (j + 1) :=
    Nat.mod_eq_of_lt (by omega)
  rw [hu2]
  rw [update_run_seq o ws ps layer tree (h - p) (h - p) (2 ^ (h - p) * (j + 1)) []
    (by omega) (by omega) (by show True; trivial) (fun t ts hh' => by cases hh')
    (doneB_nil ..)]
  rw [wNode_seq_align o ws ps layer tree (h - p) (j + 1) (2 ^ (h - p) * (j + 1))
    (by ring) (by omega)]

/-- The closed form of `initMerkle`: whatever the worker count, the
resulting per-level stacks hold the node `(i, 0)` with cursor `2^i`, the
auth array holds the nodes `(i, 1)`, and the root is the node `(h, 0)`. -/
theorem initMerkleN_closed (o : HashOracle) (ws ps : Bytes) (nproc0 h layer tree : Nat)
    (hh1 : 1 ≤ h) (hh : h ≤ 31) :
    initMerkleN o ws ps nproc0 h layer tree = some
      (⟨0, h,
        (List.range h).map (fun j =>
          (⟨[treeNH o ws ps layer tree j 0], j, 2 ^ j, layer, tree⟩ : MStack)),
        (List.range h).map (fun j => fit 32 (treeNode o ws ps layer tree j 1)),
        layer, tree⟩,
       treeNode o ws ps layer tree h 0) := by
  simp only [initMerkleN, bind]
  set P := (if h ≤ nproc0 then 0 else nproc0) with hP
  have hp : P < h := by
    rw [hP]
    split
    · omega
    · omega
  have hntop : (List.range (2 ^ P - 1)).mapM
      (fun j => workerTop o ws ps h P layer tree (j + 1)) =
      some (phQ o ws ps layer tree h P) := by
    rw [phQ]
    exact mapM_eq_some_of_forall _ _ _ (fun j hj =>
      workerTop_closed o ws ps h P layer tree j hp hh
        (by have := List.mem_range.mp hj
            have h1 : (1 : Nat) ≤ 2 ^ P := Nat.one_le_two_pow
            omega))
  rw [hntop, Option.some_bind]
  have hst0 : (⟨⟨[], h, 0, layer, tree⟩, [], [],
      some (phQ o ws ps layer tree h P)⟩ : InitSt) = phSt o ws ps layer tree h P 0 := by
    rw [phSt, phS]
    simp
  rw [hst0, foldlM_range_step (initPhase o ws ps h P layer tree)
    (phSt o ws ps layer tree h P) h
    (fun i hi => initPhase_closed o ws ps layer tree h P i hp hh hi), Option.some_bind]
  have hsf : (phSt o ws ps layer tree h P h).s.update o ws ps 1 =
      ⟨[treeNH o ws ps layer tree h 0], h, 2 ^ (min h (h - P)), layer, tree⟩ := by
    rw [phSt_s, phS, if_neg (by omega),
      update_one_combine o ws ps h (2 ^ min h (h - P)) layer tree
        (treeNH o ws ps layer tree (h - 1) 1) (treeNH o ws ps layer tree (h - 1) 0) [] rfl
        (by show h - 1 ≠ h; omega),
      combine_treeNH0 o ws ps layer tree (h - 1) (by omega)]
    have hhe : h - 1 + 1 = h := by omega
    rw [hhe]
  rw [hsf]
  simp only [phSt_stacks, phSt_auth, treeNH_node]

/-- C8: the initial tree construction is worker-count independent: for
every worker-count parameter, `initMerkle` returns exactly the traversal
state (per-level stacks and auth array) and root of the sequential
construction (`nproc = 0`). -/
theorem claim_C8_worker_independent (o : HashOracle) (ws ps : Bytes)
    (layer tree h nproc0 : Nat) (hh1 : 1 ≤ h) (hh : h ≤ 31) :
    initMerkleN o ws ps nproc0 h layer tree = initMerkleN o ws ps 0 h layer tree := by
  rw [initMerkleN_closed o ws ps nproc0 h layer tree hh1 hh,
    initMerkleN_closed o ws ps 0 h layer tree hh1 hh]

/-- C8 witness: a height-2 tree built with the 2-worker split equals the
sequential build. -/
theorem claim_C8_witness :
    initMerkleN nilOracle [] [] 1 2 0 0 = initMerkleN nilOracle [] [] 0 2 0 0 :=
  claim_C8_worker_independent nilOracle [] [] 0 0 2 1 (by decide) (by decide)

/-! ## Buffer-write algebra -/

theorem writeAt_getElem (buf src : Bytes) (pos : Nat) (h : pos + src.length ≤ buf.length)
    (i : Nat) :
    (writeAt buf src pos)[i]? =
      if pos ≤ i ∧ i < pos + src.length then src[i - pos]? else buf[i]? := by
  rw [writeAt_within _ _ _ h]
  have htl : (buf.take pos).length = pos := by
    rw [List.length_take]
    omega
  by_cases h1 : i < pos
  · rw [if_neg (by omega)]
    rw [List.getElem?_append_left (by rw [List.length_append, htl]; omega),
      List.getElem?_append_left (by rw [htl]; omega), List.getElem?_take_of_lt h1]
  · by_cases h2 : i < pos + src.length
    · rw [if_pos ⟨by omega, h2⟩]
      rw [List.getElem?_append_left (by rw [List.length_append, htl]; omega),
        List.getElem?_append_right (by rw [htl]; omega), htl]
    · rw [if_neg (by omega)]
      rw [List.getElem?_append_right (by rw [List.length_append, htl]; omega),
        List.getElem?_drop]
      congr 1
      rw [List.length_append, htl]
      omega

theorem writeAt_comm (buf s1 s2 : Bytes) (p1 p2 : Nat) (h12 : p1 + s1.length ≤ p2)
    (h2 : p2 + s2.length ≤ buf.length) :
    writeAt (writeAt buf s1 p1) s2 p2 = writeAt (writeAt buf s2 p2) s1 p1 := by
  have hl1 : (writeAt buf s1 p1).length = buf.length := writeAt_pos_le_length _ _ _ (by omega)
  have hl2 : (writeAt buf s2 p2).length = buf.length := writeAt_pos_le_length _ _ _ (by omega)
  apply List.ext_getElem?
  intro i
  rw [writeAt_getElem _ _ _ (by rw [hl1]; omega) i, writeAt_getElem _ _ _ (by omega) i,
    writeAt_getElem _ _ _ (by rw [hl2]; omega) i, writeAt_getElem _ _ _ (by omega) i]
  split_ifs <;> first | rfl | omega

theorem writeAt_overwrite (buf s1 s2 : Bytes) (p : Nat) (hlen : s1.length = s2.length)
    (h : p + s2.length ≤ buf.length) :
    writeAt (writeAt buf s1 p) s2 p = writeAt buf s2 p := by
  have hl1 : (writeAt buf s1 p).length = buf.length :=
    writeAt_pos_le_length _ _ _ (by omega)
  apply List.ext_getElem?
  intro i
  rw [writeAt_getElem _ _ _ (by rw [hl1]; omega) i, writeAt_getElem _ _ _ (by omega) i,
    writeAt_getElem _ _ _ (by omega) i]
  split_ifs <;> first | rfl | omega

theorem writeAt_zeros (m k p : Nat) (h : p + k ≤ m) :
    writeAt (List.replicate m (0 : Nat)) (List.replicate k 0) p = List.replicate m 0 := by
  apply List.ext_getElem?
  intro i
  rw [writeAt_getElem _ _ _ (by simp only [List.length_replicate]; omega) i]
  simp only [List.length_replicate, List.getElem?_replicate]
  split_ifs <;> first | rfl | omega

theorem writeAt_append (buf s1 s2 : Bytes) (p : Nat)
    (h : p + s1.length + s2.length ≤ buf.length) :
    writeAt buf (s1 ++ s2) p = writeAt (writeAt buf s1 p) s2 (p + s1.length) := by
  have hl1 : (writeAt buf s1 p).length = buf.length :=
    writeAt_pos_le_length _ _ _ (by omega)
  apply List.ext_getElem?
  intro i
  rw [writeAt_getElem _ _ _ (by rw [List.length_append]; omega) i,
    writeAt_getElem _ _ _ (by rw [hl1]; omega) i, writeAt_getElem _ _ _ (by omega) i]
  simp only [List.length_append]
  by_cases hc1 : p ≤ i ∧ i < p + (s1.length + s2.length)
  · rw [if_pos hc1]
    by_cases hc2 : i < p + s1.length
    · rw [if_neg (by omega), if_pos ⟨by omega, by omega⟩,
        List.getElem?_append_left (by omega)]
    · rw [if_pos ⟨by omega, by omega⟩, List.getElem?_append_right (by omega)]
      congr 1
      omega
  · rw [if_neg hc1, if_neg (by omega), if_neg (by omega)]

theorem be32_zero : be32 0 = List.replicate 4 0 := by decide

theorem toByte_zero8 : toByte 0 8 = List.replicate 8 0 := by decide

theorem addr0_eq : addr0 = List.replicate 32 0 := rfl

theorem leafAddr_00 (idx : Nat) : leafAddr 0 0 idx = writeAt addr0 (be32 idx) 16 := by
  rw [leafAddr, addrSet, addrSet, addrSetTree]
  simp only [adrLayer, adrOTS]
  norm_num
  rw [be32_zero, addr0_eq, writeAt_zeros 32 4 0 (by omega), toByte_zero8,
    writeAt_zeros 32 8 4 (by omega)]

theorem verifierA2 (idx : Nat) :
    addrSet (addrSet (leafAddr 0 0 idx) adrType 2) adrLtree 0 =
      writeAt addr0 (be32 2) 12 := by
  rw [leafAddr_00, addrSet, addrSet]
  simp only [adrType, adrLtree]
  norm_num
  rw [← writeAt_comm addr0 (be32 2) (be32 idx) 12 16
    (by rw [be32_length]) (by rw [be32_length, addr0_eq, List.length_replicate]; omega)]
  rw [writeAt_overwrite _ (be32 idx) (be32 0) 16 (by rw [be32_length, be32_length])
    (by rw [be32_length,
      writeAt_pos_le_length _ _ _ (by rw [addr0_eq, List.length_replicate]; omega),
      addr0_eq, List.length_replicate]; omega)]
  rw [be32_zero, writeAt_comm addr0 (be32 2) (List.replicate 4 0) 12 16
    (by rw [be32_length]) (by rw [addr0_eq, List.length_replicate, List.length_replicate]; omega)]
  rw [addr0_eq, writeAt_zeros 32 4 16 (by omega)]

theorem combineAddr_00 (k q : Nat) :
    combineAddr 0 0 k q =
      writeAt (writeAt (writeAt addr0 (be32 2) 12) (be32 k) 20) (be32 q) 24 := by
  rw [combineAddr, addrSet, addrSet, addrSet, addrSet, addrSetTree]
  simp only [adrType, adrLayer, adrHeight, adrIndex]
  norm_num
  rw [be32_zero, toByte_zero8]
  rw [← writeAt_comm addr0 (List.replicate 4 0) (be32 2) 0 12
    (by rw [List.length_replicate]; omega)
    (by rw [be32_length, addr0_eq, List.length_replicate]; omega)]
  rw [addr0_eq, writeAt_zeros 32 4 0 (by omega)]
  rw [← writeAt_comm (List.replicate 32 0) (List.replicate 8 0) (be32 2) 4 12
    (by rw [List.length_replicate])
    (by rw [be32_length, List.length_replicate]; omega)]
  rw [writeAt_zeros 32 8 4 (by omega)]

theorem verifier_combine_addr (idx k q : Nat) :
    addrSet (addrSet (addrSet (addrSet (leafAddr 0 0 idx) adrType 2) adrLtree 0)
      adrHeight k) adrIndex q = combineAddr 0 0 k q := by
  rw [verifierA2, combineAddr_00, addrSet, addrSet]
  simp only [adrHeight, adrIndex]

theorem xor_one_even (x : Nat) (h : x % 2 = 0) : x ^^^ 1 = x + 1 := by
  have h1 : (x ^^^ 1) % 2 = 1 := by
    rw [Nat.xor_mod_two_eq]
    omega
  have h2 : (x ^^^ 1) / 2 = x / 2 := by
    rw [Nat.xor_div_two]
    norm_num
  omega

theorem xor_one_odd (x : Nat) (h : x % 2 = 1) : x ^^^ 1 = x - 1 := by
  have h1 : (x ^^^ 1) % 2 = 0 := by
    rw [Nat.xor_mod_two_eq]
    omega
  have h2 : (x ^^^ 1) / 2 = x / 2 := by
    rw [Nat.xor_div_two]
    norm_num
  omega

theorem idx32_split (v : Nat) :
    writeAt (List.replicate 32 0) (be32 v) 28 = List.replicate 28 0 ++ be32 v := by
  rw [writeAt_within _ _ _ (by rw [be32_length, List.length_replicate]),
    List.take_replicate, List.drop_replicate, be32_length]
  simp

theorem rbuf_take32 (R root : Bytes) (v : Nat) (hR : R.length = 32) :
    (writeAt (writeAt (writeAt (List.replicate 96 0) R 0) root 32)
      (writeAt (List.replicate 32 0) (be32 v) 28) 64).take 32 = R := by
  rw [writeAt_take_of_le _ _ _ _ (by omega), writeAt_take_of_le _ _ _ _ (by omega)]
  rw [← hR, writeAt_zero_take _ _ (by rw [hR, List.length_replicate]; omega)]

theorem rbuf_eq (R root : Bytes) (v : Nat) (hR : R.length = 32) (hroot : root.length = 32) :
    writeAt (writeAt (writeAt (List.replicate 96 0) R 0) root 32)
        (writeAt (List.replicate 32 0) (be32 v) 28) 64 =
      writeAt (writeAt (writeAt (List.replicate 96 0) R 0) root 32) (be32 v) 92 := by
  have hl0 : (writeAt (List.replicate 96 (0 : Nat)) R 0).length = 96 :=
    writeAt_pos_le_length _ _ _ (by rw [List.length_replicate]; omega)
  have hlX : (writeAt (writeAt (List.replicate 96 (0 : Nat)) R 0) root 32).length = 96 := by
    rw [writeAt_pos_le_length _ _ _ (by rw [hl0]; omega), hl0]
  rw [idx32_split]
  rw [writeAt_append _ _ _ 64 (by rw [hlX, List.length_replicate, be32_length])]
  have hz : writeAt (writeAt (writeAt (List.replicate 96 (0 : Nat)) R 0) root 32)
      (List.replicate 28 0) 64 =
      writeAt (writeAt (List.replicate 96 0) R 0) root 32 := by
    rw [writeAt_comm (writeAt (List.replicate 96 0) R 0) root (List.replicate 28 0) 32 64
      (by rw [hroot]) (by rw [hl0, List.length_replicate]; omega)]
    rw [writeAt_comm (List.replicate 96 0) R (List.replicate 28 0) 0 64
      (by rw [hR]; omega) (by rw [List.length_replicate, List.length_replicate]; omega)]
    rw [writeAt_zeros 96 28 64 (by omega)]
  rw [hz]
  simp only [List.length_replicate]

theorem chain_split (o : HashOracle) (pub : Bytes) (a : Addr) :
    ∀ d e (x : Bytes) (s : Nat),
      chain o pub a (chain o pub a x s d) (s + d) e = chain o pub a x s (d + e) := by
  intro d
  induction d with
  | zero =>
    intro e x s
    show chain o pub a x (s + 0) e = chain o pub a x s (0 + e)
    rw [Nat.add_zero, Nat.zero_add]
  | succ d ih =>
    intro e x s
    have h1 : s + (d + 1) = s + 1 + d := by omega
    show chain o pub a (chain o pub a (chainStep o pub a s x) (s + 1) d) (s + (d + 1)) e =
      chain o pub a x s (d + 1 + e)
    rw [h1, ih e (chainStep o pub a s x) (s + 1)]
    have h2 : d + 1 + e = d + e + 1 := by omega
    rw [h2]
    rfl

theorem dataDigits_lt (hm : Bytes) : ∀ d ∈ dataDigits hm, d < 16 := by
  intro d hd
  rw [dataDigits] at hd
  obtain ⟨l, hl, hdl⟩ := List.mem_flatten.mp hd
  obtain ⟨b, _, hbl⟩ := List.mem_map.mp hl
  rw [← hbl] at hdl
  have hd2 : d = b / 16 % 16 ∨ d = b % 16 := by simpa using hdl
  rcases hd2 with h | h <;> omega

theorem checksumDigits_lt (ds : List Nat) : ∀ d ∈ checksumDigits ds, d < 16 := by
  intro d hd
  rw [checksumDigits] at hd
  simp only [List.mem_cons, List.not_mem_nil, or_false] at hd
  rcases hd with h | h | h <;> omega

theorem msgDigits_getD_le (hm : Bytes) (i : Nat) : (msgDigits hm).getD i 0 ≤ 15 := by
  rcases Nat.lt_or_ge i (msgDigits hm).length with hlt | hge
  · have hmem : (msgDigits hm).getD i 0 ∈ msgDigits hm := by
      rw [List.getD_eq_getElem _ _ hlt]
      exact List.getElem_mem _
    rw [msgDigits] at hmem ⊢
    rcases List.mem_append.mp hmem with hmem | hmem
    · have := dataDigits_lt hm _ hmem
      omega
    · have := checksumDigits_lt _ _ hmem
      omega
  · rw [List.getD_eq_default _ _ hge]
    omega

theorem wots_roundtrip (o : HashOracle) (ps hm : Bytes) (sk : List Bytes) (a : Addr) :
    wotsPKFromSig o ps hm (wotsSign o ps hm sk a) a = wotsPK o ps sk a := by
  rw [wotsPKFromSig, wotsSign, wotsPK]
  apply List.map_congr_left
  intro i hi
  rw [getD_map_range _ _ _ _ (List.mem_range.mp hi)]
  have hd := msgDigits_getD_le hm i
  have hc := chain_split o ps (addrSet a adrChain i) ((msgDigits hm).getD i 0)
    (15 - (msgDigits hm).getD i 0) (sk.getD i []) 0
  rw [Nat.zero_add] at hc
  rw [hc]
  congr 1
  omega

/-- Climbing the auth path from leaf `idx0` with the sibling nodes
reconstructs the tree nodes on the path to the root. -/
theorem rootLevels_tree (o : HashOracle) (ws ps : Bytes) (idx0 : Nat) :
    ∀ (auths : List Bytes) (k : Nat),
      (∀ j, j < auths.length → auths.getD j [] =
        treeNode o ws ps 0 0 (k + j) ((idx0 >>> (k + j)) ^^^ 1)) →
      rootLevels o ps (addrSet (addrSet (leafAddr 0 0 idx0) adrType 2) adrLtree 0) auths k
        (treeNode o ws ps 0 0 k (idx0 >>> k)) (idx0 >>> k) =
      treeNode o ws ps 0 0 (k + auths.length) (idx0 >>> (k + auths.length)) := by
  intro auths
  induction auths with
  | nil =>
    intro k _
    rw [rootLevels]
    simp
  | cons a rest ih =>
    intro k hj
    have ha : a = treeNode o ws ps 0 0 k ((idx0 >>> k) ^^^ 1) := by
      have h0 := hj 0 (by simp)
      simpa using h0
    have hshift : (idx0 >>> k) >>> 1 = idx0 >>> (k + 1) := (Nat.shiftRight_add idx0 k 1).symm
    have hj2 : ∀ j, j < rest.length → rest.getD j [] =
        treeNode o ws ps 0 0 (k + 1 + j) ((idx0 >>> (k + 1 + j)) ^^^ 1) := by
      intro j hjl
      have hx := hj (j + 1) (by simp; omega)
      rw [List.getD_cons_succ] at hx
      have he : k + (j + 1) = k + 1 + j := by omega
      rw [he] at hx
      exact hx
    have hrec := ih (k + 1) hj2
    have hlen : k + (a :: rest).length = k + 1 + rest.length := by
      rw [List.length_cons]
      omega
    rw [rootLevels, hshift, verifier_combine_addr idx0 k (idx0 >>> (k + 1)), hlen]
    by_cases hb : (idx0 >>> k) % 2 = 0
    · rw [if_pos hb, ha]
      have hq : idx0 >>> k = 2 * (idx0 >>> (k + 1)) := by
        rw [← hshift, Nat.shiftRight_one]
        omega
      rw [hq, xor_one_even _ (by omega)]
      rw [← treeNode_succ]
      exact hrec
    · rw [if_neg hb, ha]
      have hq : idx0 >>> k = 2 * (idx0 >>> (k + 1)) + 1 := by
        rw [← hshift, Nat.shiftRight_one]
        omega
      rw [hq, xor_one_odd _ (by omega)]
      have h2 : 2 * (idx0 >>> (k + 1)) + 1 - 1 = 2 * (idx0 >>> (k + 1)) := by omega
      rw [h2, ← treeNode_succ]
      exact hrec

theorem flatten_slice (L : Nat) : ∀ (bs : List Bytes) (tail : Bytes) (i : Nat),
    (∀ x ∈ bs, x.length = L) → i < bs.length →
    ((bs.flatten ++ tail).drop (i * L)).take L = bs.getD i [] := by
  intro bs
  induction bs with
  | nil =>
    intro tail i _ hi
    simp at hi
  | cons b bt ih =>
    intro tail i hlen hi
    have hb : b.length = L := hlen b (List.mem_cons_self ..)
    cases i with
    | zero =>
      rw [Nat.zero_mul, List.drop_zero, List.flatten_cons, List.getD_cons_zero,
        List.append_assoc, List.take_left' hb]
    | succ j =>
      rw [List.flatten_cons, List.append_assoc, List.getD_cons_succ,
        List.drop_append_eq_append_drop,
        List.drop_of_length_le (by
          rw [hb]
          calc L = 1 * L := (one_mul L).symm
            _ ≤ (j + 1) * L := Nat.mul_le_mul_right L (by omega)),
        List.nil_append]
      have hidx2 : (j + 1) * L - b.length = j * L := by
        rw [hb, Nat.succ_mul]
        omega
      rw [hidx2]
      exact ih tail j (fun x hx => hlen x (List.mem_cons_of_mem _ hx)) (by
        rw [List.length_cons] at hi
        omega)

theorem map_getD_self {α : Type} (l : List α) (d : α) :
    (List.range l.length).map (fun i => l.getD i d) = l := by
  apply List.ext_getElem?
  intro i
  rw [List.getElem?_map]
  by_cases hi : i < l.length
  · rw [List.getElem?_range hi]
    simp [List.getD_eq_getElem _ _ hi, List.getElem?_eq_getElem hi]
  · rw [List.getElem?_eq_none (by simp; omega), List.getElem?_eq_none (by omega)]
    rfl

theorem sliceB_eval (b : Bytes) (i j : Nat) (h1 : i ≤ j) (h2 : j ≤ b.length) :
    sliceB b i j = some ((b.drop i).take (j - i)) := by
  rw [sliceB, if_pos ⟨h1, h2⟩]

theorem bytes2sigBody_roundtrip (sigs auths : List Bytes) (H : Nat)
    (hs67 : sigs.length = wlen) (hs32 : ∀ x ∈ sigs, x.length = 32)
    (haH : auths.length = H) (ha32 : ∀ x ∈ auths, x.length = 32) :
    bytes2sigBodyN (sigs.flatten ++ auths.flatten) H = some ⟨sigs, auths⟩ := by
  have hjs : sigs.flatten.length = 32 * sigs.length := join_length_32 _ hs32
  have hja : auths.flatten.length = 32 * auths.length := join_length_32 _ ha32
  rw [bytes2sigBodyN]
  simp only [bind]
  have hsl : ∀ i ∈ List.range wlen,
      sliceB (sigs.flatten ++ auths.flatten) (i * n) ((i + 1) * n) =
        some (sigs.getD i []) := by
    intro i hi
    have hi' := List.mem_range.mp hi
    simp only [wlen] at hi'
    rw [sliceB_eval _ _ _ (by simp only [n]; omega)
      (by simp only [n, List.length_append]; rw [hjs, hja, hs67]; simp only [wlen]; omega)]
    have hd : (i + 1) * n - i * n = 32 := by
      simp only [n]
      omega
    rw [hd]
    have hfs := flatten_slice 32 sigs auths.flatten i hs32 (by rw [hs67]; simp only [wlen]; omega)
    simp only [n]
    exact congrArg some hfs
  rw [mapM_eq_some_of_forall _ _ _ hsl, Option.some_bind]
  have hal : ∀ i ∈ List.range H,
      sliceB (sigs.flatten ++ auths.flatten) (n * wlen + n * i) (n * wlen + n * (i + 1)) =
        some (auths.getD i []) := by
    intro i hi
    have hi' := List.mem_range.mp hi
    rw [sliceB_eval _ _ _ (by simp only [n]; omega)
      (by simp only [n, wlen, List.length_append]
          rw [hjs, hja, hs67, haH]
          simp only [wlen]
          omega)]
    have hd : n * wlen + n * (i + 1) - (n * wlen + n * i) = 32 := by
      simp only [n]
      omega
    rw [hd]
    have hdrop : (sigs.flatten ++ auths.flatten).drop (n * wlen + n * i) =
        (auths.flatten ++ []).drop (i * 32) := by
      rw [List.append_nil, List.drop_append_eq_append_drop,
        List.drop_of_length_le (by rw [hjs, hs67]; simp only [n, wlen]; omega),
        List.nil_append, hjs, hs67]
      have hix : n * wlen + n * i - 32 * wlen = i * 32 := by
        simp only [n, wlen]
        omega
      rw [hix]
    rw [hdrop]
    exact congrArg some (flatten_slice 32 auths [] i ha32 (by omega))
  rw [mapM_eq_some_of_forall _ _ _ hal, Option.some_bind]
  rw [← hs67, ← haH, map_getD_self, map_getD_self]
  rfl

theorem bytes2sig_roundtrip (idx : Nat) (r : Bytes) (sigs auths : List Bytes) (H : Nat)
    (hidx : idx < 4294967296) (hr : r.length = 32) (hs67 : sigs.length = wlen)
    (hs32 : ∀ x ∈ sigs, x.length = 32) (haH : auths.length = H)
    (ha32 : ∀ x ∈ auths, x.length = 32) :
    bytes2sigN (be32 idx ++ r ++ sigs.flatten ++ auths.flatten) H =
      some (some ⟨idx, r, ⟨sigs, auths⟩⟩) := by
  have hjs : sigs.flatten.length = 32 * sigs.length := join_length_32 _ hs32
  have hja : auths.flatten.length = 32 * auths.length := join_length_32 _ ha32
  have hlen : (be32 idx ++ r ++ sigs.flatten ++ auths.flatten).length = 2180 + 32 * H := by
    simp only [List.length_append, be32_length, hr, hjs, hja, hs67, haH, wlen]
  have hht : Int.fdiv (((be32 idx ++ r ++ sigs.flatten ++ auths.flatten).length : Int) -
      ((4 + n + wlen * n : Nat) : Int)) 32 = (H : Int) := by
    rw [hlen]
    simp only [n, wlen]
    rw [Int.fdiv_eq_ediv _ (by omega)]
    omega
  rw [bytes2sigN]
  simp only [hht, bind]
  rw [if_neg (by omega)]
  have hbb : sliceB (be32 idx ++ r ++ sigs.flatten ++ auths.flatten) (4 + n)
      (be32 idx ++ r ++ sigs.flatten ++ auths.flatten).length =
      some (sigs.flatten ++ auths.flatten) := by
    rw [sliceB_eval _ _ _ (by simp only [n]; rw [hlen]; omega) le_rfl]
    congr 1
    rw [List.append_assoc, List.append_assoc, ← List.append_assoc (be32 idx)]
    rw [List.drop_left' (by rw [List.length_append, be32_length, hr]; simp only [n])]
    rw [List.take_of_length_le (by
      simp only [List.length_append, be32_length, hr, hjs, hja, hs67, haH, n, wlen]
      omega)]
  rw [hbb, Option.some_bind]
  have htn : ((H : Int)).toNat = H := Int.toNat_natCast H
  rw [htn, bytes2sigBody_roundtrip sigs auths H hs67 hs32 haH ha32, Option.some_bind]
  rw [u32BE_of_take4 _ idx hidx (by
    rw [List.append_assoc, List.append_assoc, List.take_left' (be32_length idx)])]
  rw [Option.some_bind]
  have hrs : sliceB (be32 idx ++ r ++ sigs.flatten ++ auths.flatten) 4 (4 + n) =
      some r := by
    rw [sliceB_eval _ _ _ (by omega) (by rw [hlen]; simp only [n]; omega)]
    have h32 : 4 + n - 4 = 32 := by simp only [n]
    rw [h32, List.append_assoc, List.append_assoc, List.drop_left' (be32_length idx),
      List.take_left' hr]
  rw [hrs, Option.some_bind]
  rfl

theorem fit_of_length (m : Nat) (x : Bytes) (h : x.length = m) : fit m x = x := by
  rw [fit, List.take_of_length_le (by omega), h]
  simp

theorem randHash_length (o : HashOracle) (pub l r : Bytes) (a : Addr) :
    (randHash o pub l r a).length = 32 := hashH_length ..

theorem treeNode_length (o : HashOracle) (ws ps : Bytes) (layer tree : Nat) :
    ∀ k idx, (treeNode o ws ps layer tree k idx).length = 32 := by
  intro k idx
  cases k with
  | zero => exact fit_length ..
  | succ k => exact randHash_length ..

theorem ltreeLevel_all32 (o : HashOracle) (pub : Bytes) (a : Addr) (height : Nat)
    (pk : List Bytes) (h32 : ∀ x ∈ pk, x.length = 32) (h2 : 2 ≤ pk.length) :
    ∀ x ∈ ltreeLevel o pub a height pk, x.length = 32 := by
  intro x hx
  rw [ltreeLevel] at hx
  rcases List.mem_append.mp hx with hx | hx
  · obtain ⟨i, _, hix⟩ := List.mem_map.mp hx
    rw [← hix]
    exact randHash_length ..
  · by_cases hodd : pk.length % 2 = 1
    · rw [if_pos hodd, List.mem_singleton] at hx
      rw [hx]
      have hlt : pk.length - 1 < pk.length := by omega
      have hmem : pk.getD (pk.length - 1) [] ∈ pk := by
        rw [List.getD_eq_getElem _ _ hlt]
        exact List.getElem_mem _
      exact h32 _ hmem
    · rw [if_neg hodd] at hx
      cases hx

theorem ltreeGo_length (o : HashOracle) (pub : Bytes) (a : Addr) :
    ∀ (fuel : Nat) (hgt : Nat) (pk : List Bytes), (∀ x ∈ pk, x.length = 32) →
      1 ≤ pk.length → (ltreeGo o pub a hgt fuel pk).length = 32 := by
  intro fuel
  induction fuel with
  | zero =>
    intro hgt pk h32 h1
    rw [ltreeGo]
    rcases pk with _ | ⟨b, bs⟩
    · simp at h1
    · rw [List.getD_cons_zero]
      exact h32 b (List.mem_cons_self ..)
  | succ f ih =>
    intro hgt pk h32 h1
    rw [ltreeGo]
    by_cases h1le : pk.length ≤ 1
    · rw [if_pos h1le]
      rcases pk with _ | ⟨b, bs⟩
      · simp at h1
      · rw [List.getD_cons_zero]
        exact h32 b (List.mem_cons_self ..)
    · rw [if_neg h1le]
      exact ih (hgt + 1) _ (ltreeLevel_all32 o pub a hgt pk h32 (by omega))
        (by rw [ltreeLevel_length]; omega)

theorem ltree_length (o : HashOracle) (pub : Bytes) (a : Addr) (pk : List Bytes)
    (h32 : ∀ x ∈ pk, x.length = 32) (h1 : 1 ≤ pk.length) :
    (ltree o pub a pk).length = 32 :=
  ltreeGo_length o pub a pk.length 0 pk h32 h1

theorem wotsSK_all32 (o : HashOracle) (ws : Bytes) (a : Addr) :
    ∀ x ∈ wotsSK o ws a, x.length = 32 := by
  intro x hx
  rw [wotsSK] at hx
  obtain ⟨i, _, hix⟩ := List.mem_map.mp hx
  rw [← hix]
  exact fit_length ..

theorem chain_succ (o : HashOracle) (pub : Bytes) (a : Addr) (x : Bytes) (s k : Nat) :
    chain o pub a x s (k + 1) = chain o pub a (chainStep o pub a s x) (s + 1) k := rfl

theorem wotsPK_all32 (o : HashOracle) (pub : Bytes) (sk : List Bytes) (a : Addr)
    (hsk : ∀ x ∈ sk, x.length = 32) :
    ∀ x ∈ wotsPK o pub sk a, x.length = 32 := by
  intro x hx
  rw [wotsPK] at hx
  obtain ⟨i, _, hix⟩ := List.mem_map.mp hx
  rw [← hix]
  rcases Nat.lt_or_ge i sk.length with hlt | hge
  · apply chain_length_32
    have hmem : sk.getD i [] ∈ sk := by
      rw [List.getD_eq_getElem _ _ hlt]
      exact List.getElem_mem _
    exact hsk _ hmem
  · rw [List.getD_eq_default _ _ hge,
      show (15 : Nat) = 14 + 1 from rfl, chain_succ]
    apply chain_length_32
    exact fit_length ..

theorem leafCalc_length (o : HashOracle) (ws ps : Bytes) (layer tree idx : Nat) :
    (leafCalc o ws ps layer tree idx).length = 32 := by
  rw [leafCalc]
  apply ltree_length
  · exact wotsPK_all32 _ _ _ _ (wotsSK_all32 o ws (leafAddr layer tree idx))
  · rw [wotsPK, List.length_map, List.length_range]
    simp [wlen]

theorem wotsSK_length (o : HashOracle) (ws : Bytes) (a : Addr) :
    (wotsSK o ws a).length = wlen := by
  rw [wotsSK, List.length_map, List.length_range]

theorem wotsSign_all32 (o : HashOracle) (pub hm : Bytes) (sk : List Bytes) (a : Addr)
    (hsk : ∀ x ∈ sk, x.length = 32) (hlen : wlen ≤ sk.length) :
    ∀ x ∈ wotsSign o pub hm sk a, x.length = 32 := by
  intro x hx
  rw [wotsSign] at hx
  obtain ⟨i, hir, hix⟩ := List.mem_map.mp hx
  rw [← hix]
  apply chain_length_32
  have hi := List.mem_range.mp hir
  have hmem : sk.getD i [] ∈ sk := by
    rw [List.getD_eq_getElem _ _ (by simp only [wlen] at hi hlen; omega)]
    exact List.getElem_mem _
  exact hsk _ hmem

/-- The state a key must be in for its next signature to verify: the next
leaf cursor is `i`, the stored root is the tree root, and the auth path
holds the siblings of leaf `i`'s path. -/
def KeyInv (o : HashOracle) (k : PrivateKey) (i : Nat) : Prop :=
  1 ≤ k.pub.Height ∧ k.pub.Height ≤ 31 ∧
  k.m.leaf = i ∧ k.m.layer = 0 ∧ k.m.tree = 0 ∧
  k.m.auth.length = k.pub.Height ∧
  k.pub.root = treeNode o k.wotsSeed k.pub.publicSeed 0 0 k.pub.Height 0 ∧
  ∀ j, j < k.pub.Height → k.m.auth.getD j [] =
    treeNode o k.wotsSeed k.pub.publicSeed 0 0 j ((i >>> j) ^^^ 1)

/-- A signature emitted from a key in the invariant state verifies. -/
theorem verify_sign (o : HashOracle) (k : PrivateKey) (msg sig : Bytes) (k' : PrivateKey)
    (i : Nat) (hinv : KeyInv o k i) (hi : i < 2 ^ k.pub.Height)
    (hs : SignN o k msg = some (sig, k')) :
    VerifyN o k.pub sig msg = some true := by
  obtain ⟨hH1, hH31, hleaf, hlayer, htree, halen, hroot, hauth⟩ := hinv
  rw [SignN] at hs
  rcases ht : traverseN o k.wotsSeed k.pub.publicSeed k.m with _ | m1 <;> rw [ht] at hs
  · cases hs
  · have hsig : sig = sigBytes ⟨k.m.leaf, (writeAt (writeAt (writeAt (List.replicate 96 0)
        (prfSum o k.msgSeed (writeAt (List.replicate 32 0) (be32 k.m.leaf) 28)) 0)
        k.pub.root 32) (writeAt (List.replicate 32 0) (be32 k.m.leaf) 28) 64).take 32,
        createSignatureBodyN o k (hashMsg o (writeAt (writeAt (writeAt (List.replicate 96 0)
          (prfSum o k.msgSeed (writeAt (List.replicate 32 0) (be32 k.m.leaf) 28)) 0)
          k.pub.root 32) (writeAt (List.replicate 32 0) (be32 k.m.leaf) 28) 64) msg)⟩ := by
      cases hs
      rfl
    rw [hleaf] at hsig
    have hrootlen : k.pub.root.length = 32 := by
      rw [hroot, treeNode_length]
    rw [rbuf_take32 _ _ _ (prfSum_length ..)] at hsig
    rw [rbuf_eq _ _ _ (prfSum_length ..) hrootlen] at hsig
    have hbs : (createSignatureBodyN o k (hashMsg o (writeAt (writeAt (writeAt
        (List.replicate 96 0) (prfSum o k.msgSeed (writeAt (List.replicate 32 0)
        (be32 i) 28)) 0) k.pub.root 32) (be32 i) 92) msg)).sig =
        wotsSign o k.pub.publicSeed (hashMsg o (writeAt (writeAt (writeAt
          (List.replicate 96 0) (prfSum o k.msgSeed (writeAt (List.replicate 32 0)
          (be32 i) 28)) 0) k.pub.root 32) (be32 i) 92) msg)
          (wotsSK o k.wotsSeed (leafAddr 0 0 i)) (leafAddr 0 0 i) := by
      rw [createSignatureBodyN, hlayer, htree, hleaf]
    have hba : (createSignatureBodyN o k (hashMsg o (writeAt (writeAt (writeAt
        (List.replicate 96 0) (prfSum o k.msgSeed (writeAt (List.replicate 32 0)
        (be32 i) 28)) 0) k.pub.root 32) (be32 i) 92) msg)).auth = k.m.auth := rfl
    have hs67 : (createSignatureBodyN o k (hashMsg o (writeAt (writeAt (writeAt
        (List.replicate 96 0) (prfSum o k.msgSeed (writeAt (List.replicate 32 0)
        (be32 i) 28)) 0) k.pub.root 32) (be32 i) 92) msg)).sig.length = wlen := by
      rw [hbs, wotsSign, List.length_map, List.length_range]
    have hs32 : ∀ x ∈ (createSignatureBodyN o k (hashMsg o (writeAt (writeAt (writeAt
        (List.replicate 96 0) (prfSum o k.msgSeed (writeAt (List.replicate 32 0)
        (be32 i) 28)) 0) k.pub.root 32) (be32 i) 92) msg)).sig, x.length = 32 := by
      rw [hbs]
      exact wotsSign_all32 _ _ _ _ _ (wotsSK_all32 o k.wotsSeed (leafAddr 0 0 i))
        (by rw [wotsSK_length])
    have hauth32 : ∀ x ∈ k.m.auth, x.length = 32 := by
      intro x hx
      obtain ⟨j, hj, hjx⟩ := List.getElem_of_mem hx
      rw [← hjx]
      have hh := hauth j (by omega)
      rw [List.getD_eq_getElem _ _ hj] at hh
      rw [hh, treeNode_length]
    rw [sigBytes_eq _ (prfSum_length ..) hs67 hs32 (by rw [hba]; exact hauth32)] at hsig
    rw [VerifyN]
    have hu8 : u8 k.pub.Height = k.pub.Height := by
      rw [u8]
      omega
    have h2H : (2 : Nat) ^ k.pub.Height ≤ 2 ^ 31 := Nat.pow_le_pow_right (by omega) hH31
    have h231 : (2 : Nat) ^ 31 = 2147483648 := by norm_num
    rw [hsig, hba, hu8, bytes2sig_roundtrip i _ _ _ k.pub.Height (by omega)
      (prfSum_length ..) hs67 hs32 (by rw [halen]) hauth32]
    rw [← rbuf_eq _ _ _ (prfSum_length ..) hrootlen]
    rw [rbuf_eq _ _ _ (prfSum_length ..) hrootlen]
    simp only [rootFromSigN]
    rw [show addrSet (addrSetTree (addrSet addr0 adrLayer 0) 0) adrOTS i =
      leafAddr 0 0 i from rfl]
    rw [hbs, wots_roundtrip]
    rw [show ltree o k.pub.publicSeed (addrSet (addrSet (leafAddr 0 0 i) adrType 1)
      adrLtree i) (wotsPK o k.pub.publicSeed (wotsSK o k.wotsSeed (leafAddr 0 0 i))
      (leafAddr 0 0 i)) = leafCalc o k.wotsSeed k.pub.publicSeed 0 0 i from rfl]
    rw [show leafCalc o k.wotsSeed k.pub.publicSeed 0 0 i =
      treeNode o k.wotsSeed k.pub.publicSeed 0 0 0 i by
        rw [treeNode_zero, fit_of_length _ _ (leafCalc_length ..)]]
    have hwalk := rootLevels_tree o k.wotsSeed k.pub.publicSeed i k.m.auth 0
      (by
        intro j hj
        rw [Nat.zero_add]
        exact hauth j (by omega))
    rw [Nat.shiftRight_zero, Nat.zero_add] at hwalk
    rw [hwalk, halen]
    have hsr : i >>> k.pub.Height = 0 := by
      rw [Nat.shiftRight_eq_div_pow]
      exact Nat.div_eq_of_lt hi
    rw [hsr, ← hroot]
    simp

theorem writeAt_id32 (x : Bytes) (hx : x.length = 32) :
    writeAt (List.replicate 32 0) x 0 = x := by
  rw [writeAt_within _ _ _ (by simp [hx])]
  simp [hx]

/-- A fresh key pair satisfies the invariant at leaf 0, and the private
key embeds the returned public key. -/
theorem keygen_inv (o : HashOracle) (np h : Nat) (seed : Bytes) (k : PrivateKey)
    (pk : PublicKey) (hh1 : 1 ≤ h) (hh : h ≤ 31)
    (hk : NewXMSSKeyPairN o np h seed = some (k, pk)) :
    KeyInv o k 0 ∧ k.pub = pk := by
  rw [NewXMSSKeyPairN, NewXMSSKeyPairWithParamsN] at hk
  rw [initMerkleN_closed o _ _ np h 0 0 hh1 hh] at hk
  simp only [bind, Option.some_bind, pure] at hk
  rw [Option.some.injEq] at hk
  obtain ⟨hk1, hk2⟩ := Prod.mk.injEq .. |>.mp hk.symm
  subst hk1
  subst hk2
  refine ⟨⟨hh1, hh, rfl, rfl, rfl, ?_, ?_, ?_⟩, rfl⟩
  · simp only [List.length_map, List.length_range]
  · exact writeAt_id32 _ (treeNode_length ..)
  · intro j hj
    rw [getD_map_range _ _ _ _ hj, fit_of_length _ _ (treeNode_length ..),
      Nat.zero_shiftRight, Nat.zero_xor]

def junkMerkle : Merkle := ⟨0, 0, [], [], 0, 0⟩

def mC6 : Merkle :=
  ⟨0, 2, [⟨[⟨[7], 0, 0⟩], 0, 1, 0, 0⟩, ⟨[⟨[9], 1, 2⟩], 1, 2, 0, 0⟩], [[1], [2]], 0, 0⟩

/-- C6 witness: a concrete 2-level state at `leaf = 0`; height 0 is at a
boundary, so its auth node and stack are replaced as specified. -/
theorem claim_C6_witness :
    if (mC6.leaf + 1) % 2 ^ 0 = 0 then
      ∃ t rest, (mC6.stacks'.getD 0 junkStack).stk = t :: rest ∧
        ((refreshAuthN mC6).getD junkMerkle).auth.getD 0 [] = t.node ∧
        ((refreshAuthN mC6).getD junkMerkle).stacks'.getD 0 junkStack =
          (mC6.stacks'.getD 0 junkStack).reinit ((mC6.leaf + 1 + 2 ^ 0) ^^^ 2 ^ 0) 0
    else ((refreshAuthN mC6).getD junkMerkle).auth.getD 0 [] = mC6.auth.getD 0 [] ∧
      ((refreshAuthN mC6).getD junkMerkle).stacks'.getD 0 junkStack =
        mC6.stacks'.getD 0 junkStack :=
  claim_C6_refresh_auth mC6 ((refreshAuthN mC6).getD junkMerkle)
    (by decide) (by decide) (by decide) (by decide)
    (some_getD _ _ (by decide)) 0 (by decide)

/-- C7 witness: the schedule equation at the concrete 2-level state. -/
theorem claim_C7_witness :
    buildN nilOracle [] [] mC6 = (buildOnce nilOracle [] [])^[2 * mC6.height - 1] mC6 :=
  (claim_C7_build_schedule nilOracle [] [] mC6 (by decide) (by decide)).1

def junkBK : Bytes × PrivateKey := ([], junkKey)

set_option maxRecDepth 40000 in
/-- C5 witness: the freshly generated height-1 key satisfies the auth-path
side conditions, and its first signature has length 4 + 32·(68 + 1). -/
theorem claim_C5_witness :
    (((SignN nilOracle ((NewXMSSKeyPairN nilOracle 0 1 []).getD junkKP).1 []).getD
        junkBK).1).length =
      4 + 32 * (68 + ((NewXMSSKeyPairN nilOracle 0 1 []).getD junkKP).1.pub.Height) :=
  (claim_C5_sig_layout nilOracle ((NewXMSSKeyPairN nilOracle 0 1 []).getD junkKP).1 []
    ((SignN nilOracle ((NewXMSSKeyPairN nilOracle 0 1 []).getD junkKP).1 []).getD junkBK).1
    ((SignN nilOracle ((NewXMSSKeyPairN nilOracle 0 1 []).getD junkKP).1 []).getD junkBK).2
    (by decide) (by decide)
    (some_getD (SignN nilOracle ((NewXMSSKeyPairN nilOracle 0 1 []).getD junkKP).1 [])
      junkBK (by decide))).1

end XMSS
